import Mathlib

/-!
Verification of the okahistory undo/redo history engine.

This file is a shallow embedding of `src/okahistory.ts` (the full variant
with `dispatch`, children, `seriesKey` coalescing, `ignoreDuplication`,
`jump`, `onUpdated` and serialization).  The TypeScript module keeps two
mutable variables, `historyStack` and `currentStackIndex`; here every
operation takes and returns an explicit `HistoryState`.  The caller-owned
external state that reducers mutate is modelled by an explicit value of an
abstract type `S` threaded through every reducer call.  Opaque JavaScript
argument values (`RedoArgs` / `UndoArgs`, both `any` in the source) are
modelled by one abstract type `V` with decidable equality (JavaScript
`===` on the primitive values used by the library's tests).

A thrown JavaScript exception is modelled by an `Option JsErr` component in
each operation's result; the history/state components of an erroring call
hold whatever mutations happened before the throw, exactly as the mutable
variables would.  The `onUpdated` callback is modelled by counting its
invocations in a `Nat` component.
-/

namespace Okahistory

/-- A recorded child action (`SavedAction` built by `dispatch` for the
`children` argument; the engine never gives children a `seriesKey` or
nested children, and never reads those fields of a child). -/
structure ChildSaved (V : Type) where
  name : String
  redoArgs : V
  undoArgs : V
deriving Repr, DecidableEq

/-- `SavedAction` from the source: one stack entry. -/
structure SavedAction (V : Type) where
  name : String
  redoArgs : V
  undoArgs : V
  seriesKey : Option String := none
  children : Option (List (ChildSaved V)) := none
deriving Repr, DecidableEq

/-- `Reducer` from the source.  `redo` applies the action to the external
state and returns the captured `undoArgs` (in TS it mutates state and
returns the args; here it returns the pair).  `undo` reverses using
previously captured `undoArgs`.  `getLabel` is omitted: it is only read by
`getActionSummaries`, which no claim concerns. -/
structure Reducer (V S : Type) where
  redo : V → S → S × V
  undo : V → S → S
  ignoreDuplication : Bool := false
  checkDuplicationFn : Option (V → V → Bool) := none

/-- The caller-supplied `Action` argument of `dispatch`. -/
structure ActionInput (V : Type) where
  name : String
  args : V
  seriesKey : Option String := none
deriving Repr, DecidableEq

/-- The two mutable module variables `historyStack` / `currentStackIndex`. -/
structure HistoryState (V : Type) where
  historyStack : List (SavedAction V)
  currentStackIndex : Int
deriving Repr, DecidableEq

/-- The `SerializedState` snapshot.  The TS type annotates `version: '0'`,
but at runtime the field is just a string and `deserialize` never reads it. -/
structure SerializedState (V : Type) where
  version : String
  stack : List (SavedAction V)
  currentStackIndex : Int
deriving Repr, DecidableEq

/-- A thrown JavaScript exception: either the explicit
`new Error('not found a reducer for the action: …')` from `getReducer`, or
a `TypeError` from reading a property of `undefined`/`null` (null action,
`historyStack[i]` out of range, or `reducerMap[name]` absent in
`_undo`/`_redo`). -/
inductive JsErr where
  | notFoundReducer (name : String)
  | typeError
deriving Repr, DecidableEq

/-- Result of one engine operation: the new history state, the external
state (including mutations made before a throw), the number of `onUpdated`
invocations, and the exception if one was thrown. -/
structure OpResult (V S : Type) where
  hist : HistoryState V
  state : S
  notified : Nat
  err : Option JsErr
deriving Repr, DecidableEq

variable {V S : Type} [DecidableEq V]

/-- A reducer registry (`reducerMap`); `defineReducer` inserts. -/
def ReducerMap (V S : Type) := String → Option (Reducer V S)

/-- `defineReducer`: store a reducer under a name, overwriting. -/
def defineReducer (m : ReducerMap V S) (name : String) (r : Reducer V S) :
    ReducerMap V S :=
  fun k => if k = name then some r else m k

/-- The empty registry. -/
def emptyMap : ReducerMap V S := fun _ => none

/-- The initial engine state: empty stack, index `-1`. -/
def initialState : HistoryState V := ⟨[], -1⟩

/-- JavaScript truthiness of an optional string (`if (savedAction.seriesKey)`,
`!!a.seriesKey`): `undefined` and the empty string are falsy. -/
def keyTruthy : Option String → Bool
  | none => false
  | some k => k ≠ ""

/-- `hasSameSeriesKey` from the source, on the `seriesKey` fields
(the source takes any `{ seriesKey?: string }` records). -/
def hasSameSeriesKey (a b : Option String) : Bool :=
  keyTruthy a && keyTruthy b && a == b

/-- `splitArray` from the source: partition preserving order. -/
def splitArray (arr : List α) (checkFn : α → Bool) : List α × List α :=
  arr.partition checkFn

/-- `defaultCheckDuplicationFn`: JavaScript `a === b` (value equality on
the primitive argument values modelled by `V`). -/
def defaultCheckDuplicationFn (a b : V) : Bool := a == b

/-- The duplication predicate `reducer.checkDuplicationFn ?? defaultCheckDuplicationFn`. -/
def checkDupFn (r : Reducer V S) : V → V → Bool :=
  r.checkDuplicationFn.getD defaultCheckDuplicationFn

/-- `isSameTypeSavedAction` from the source: same name, and
`a.children === b.children` (true only when both are `undefined`, since two
distinct arrays are never reference-equal) or both present with equal
length and pointwise equal child names. -/
def isSameTypeSavedAction (a b : SavedAction V) : Bool :=
  a.name == b.name &&
    match a.children, b.children with
    | none, none => true
    | some ac, some bc =>
        ac.length == bc.length &&
          (ac.zip bc).all (fun p => p.1.name == p.2.name)
    | _, _ => false

/-- The merged entry built in `pushHistory` when the first entry sharing the
`seriesKey` is compatible: the new entry inherits `before`'s `undoArgs`,
and each child inherits the corresponding `before` child's `undoArgs`
(`before.children![i]` is safe because `isSameTypeSavedAction` guarantees
equal child counts whenever both have children). -/
def mergeSaved (before saved : SavedAction V) : SavedAction V :=
  { saved with
    undoArgs := before.undoArgs
    children := saved.children.map (fun cs =>
      cs.zipWith (fun c bc => { c with undoArgs := bc.undoArgs })
        (before.children.getD [])) }

/-- JavaScript `Array.prototype.splice(start, deleteCount)` restricted to
removal: negative `start` counts from the end, and both arguments are
clamped. -/
def jsSpliceRemove (l : List α) (start delCount : Int) : List α :=
  let len : Int := l.length
  let s := (if start < 0 then max (len + start) 0 else min start len).toNat
  let c := (max delCount 0).toNat
  l.take s ++ l.drop (s + c)

/-- The redo-branch truncation at the top of `pushHistory`:
`historyStack.splice(currentStackIndex + 1, historyStack.length - currentStackIndex)`
when `currentStackIndex < historyStack.length - 1`. -/
def truncateStack (h : HistoryState V) : List (SavedAction V) :=
  if h.currentStackIndex < (h.historyStack.length : Int) - 1 then
    jsSpliceRemove h.historyStack (h.currentStackIndex + 1)
      ((h.historyStack.length : Int) - h.currentStackIndex)
  else h.historyStack

/-- `pushHistory` from the source.  Returns the new history state and the
number of `onUpdated` invocations made during the push: the compatible
series-merge branch goes through `setHistoryStack` (which invokes
`onUpdated`), and `pushHistory` always invokes `onUpdated` once more at the
end. -/
def pushHistory (max : Nat) (savedAction : SavedAction V)
    (h : HistoryState V) : HistoryState V × Nat :=
  let stack0 := truncateStack h
  let pushed :=
    if keyTruthy savedAction.seriesKey then
      let splitedByKey := splitArray stack0
        (fun a => hasSameSeriesKey a.seriesKey savedAction.seriesKey)
      match splitedByKey.1 with
      | [] => (stack0 ++ [savedAction], 0)
      | before :: _ =>
          if isSameTypeSavedAction before savedAction then
            (splitedByKey.2 ++ [mergeSaved before savedAction], 1)
          else
            (stack0 ++ [savedAction], 0)
    else (stack0 ++ [savedAction], 0)
  let stack2 := if pushed.1.length > max then pushed.1.tail else pushed.1
  (⟨stack2, (stack2.length : Int) - 1⟩, pushed.2 + 1)

/-- `getReducer` from the source: lookup or throw
`not found a reducer for the action: <name>`. -/
def getReducer (reducerMap : ReducerMap V S) (name : String) :
    Except JsErr (Reducer V S) :=
  match reducerMap name with
  | none => .error (.notFoundReducer name)
  | some r => .ok r

/-- The `children?.map(...)` loop in `dispatch`: for each child in order,
resolve its reducer (throwing if absent) and run its `redo`, capturing the
returned `undoArgs`.  The external state threads through every call made
before a throw. -/
def redoForwardChildren (map : ReducerMap V S) :
    List (ActionInput V) → S → S × Except JsErr (List (ChildSaved V))
  | [], s => (s, .ok [])
  | c :: rest, s =>
    match map c.name with
    | none => (s, .error (.notFoundReducer c.name))
    | some r =>
      let su := r.redo c.args s
      match redoForwardChildren map rest su.1 with
      | (s2, .ok cs) =>
          (s2, .ok (⟨c.name, c.args, su.2⟩ :: cs))
      | (s2, .error e) => (s2, .error e)

/-- The `current.children?.forEach((c) => reducerMap[c.name].redo(c.redoArgs))`
loop of `_redo` (returned `undoArgs` are discarded; a missing reducer is a
`TypeError` on `undefined.redo`). -/
def redoChildrenRun (map : ReducerMap V S) :
    List (ChildSaved V) → S → S × Option JsErr
  | [], s => (s, none)
  | c :: rest, s =>
    match map c.name with
    | none => (s, some .typeError)
    | some r => redoChildrenRun map rest (r.redo c.redoArgs s).1

/-- The `current.children?.concat().reverse().forEach(...)` loop of `_undo`
(applied to the already-reversed list). -/
def undoChildrenRun (map : ReducerMap V S) :
    List (ChildSaved V) → S → S × Option JsErr
  | [], s => (s, none)
  | c :: rest, s =>
    match map c.name with
    | none => (s, some .typeError)
    | some r => undoChildrenRun map rest (r.undo c.undoArgs s)

/-- JavaScript `historyStack[i]`: `undefined` (here `none`) outside the
array bounds, including negative indices. -/
def stackAt (h : HistoryState V) (i : Int) : Option (SavedAction V) :=
  if 0 ≤ i then h.historyStack.get? i.toNat else none

/-- The external-state effect of replaying one entry forward, exactly as
`_redo` performs it: primary reducer lookup, primary `redo` (captured
`undoArgs` discarded), then each child's `redo` in declaration order. -/
def entryStepRedo (map : ReducerMap V S) (e : SavedAction V) (s : S) :
    S × Option JsErr :=
  match map e.name with
  | none => (s, some .typeError)
  | some r => redoChildrenRun map (e.children.getD []) (r.redo e.redoArgs s).1

/-- The external-state effect of reversing one entry, exactly as `_undo`
performs it: children's `undo` in reverse declaration order, then the
primary reducer lookup and its `undo`. -/
def entryStepUndo (map : ReducerMap V S) (e : SavedAction V) (s : S) :
    S × Option JsErr :=
  match undoChildrenRun map (e.children.getD []).reverse s with
  | (s1, some err) => (s1, some err)
  | (s1, none) =>
    match map e.name with
    | none => (s1, some .typeError)
    | some r => (r.undo e.undoArgs s1, none)

/-- `_undo` from the source: reverse the entry at the cursor, then decrement
the cursor.  On a throw the cursor is left unchanged. -/
def undoStep (map : ReducerMap V S) (h : HistoryState V) (s : S) :
    HistoryState V × S × Option JsErr :=
  match stackAt h h.currentStackIndex with
  | none => (h, s, some .typeError)
  | some current =>
    match entryStepUndo map current s with
    | (s1, some e) => (h, s1, some e)
    | (s1, none) =>
        ({ h with currentStackIndex := h.currentStackIndex - 1 }, s1, none)

/-- `_redo` from the source: replay the entry after the cursor, then
increment the cursor. -/
def redoStep (map : ReducerMap V S) (h : HistoryState V) (s : S) :
    HistoryState V × S × Option JsErr :=
  match stackAt h (h.currentStackIndex + 1) with
  | none => (h, s, some .typeError)
  | some current =>
    match entryStepRedo map current s with
    | (s1, some e) => (h, s1, some e)
    | (s1, none) =>
        ({ h with currentStackIndex := h.currentStackIndex + 1 }, s1, none)

/-- `undo()`: guarded `_undo` plus one `onUpdated` (none if the step threw,
since the throw propagates before `onUpdated()` runs). -/
def undo (map : ReducerMap V S) (h : HistoryState V) (s : S) : OpResult V S :=
  if -1 < h.currentStackIndex then
    match undoStep map h s with
    | (h1, s1, none) => ⟨h1, s1, 1, none⟩
    | (h1, s1, some e) => ⟨h1, s1, 0, some e⟩
  else ⟨h, s, 0, none⟩

/-- `redo()`: guarded `_redo` plus one `onUpdated`. -/
def redo (map : ReducerMap V S) (h : HistoryState V) (s : S) : OpResult V S :=
  if h.currentStackIndex < (h.historyStack.length : Int) - 1 then
    match redoStep map h s with
    | (h1, s1, none) => ⟨h1, s1, 1, none⟩
    | (h1, s1, some e) => ⟨h1, s1, 0, some e⟩
  else ⟨h, s, 0, none⟩

/-- Iterate an internal step `n` times, stopping at the first throw
(the `[...Array(n)].forEach(() => _undo())` loops of `jump`). -/
def stepN (step : HistoryState V → S → HistoryState V × S × Option JsErr) :
    Nat → HistoryState V → S → HistoryState V × S × Option JsErr
  | 0, h, s => (h, s, none)
  | n + 1, h, s =>
    match step h s with
    | (h1, s1, none) => stepN step n h1 s1
    | e => e

/-- `jump(index)` from the source: clamp the target to
`[-1, historyStack.length - 1]`, repeat `_undo` or `_redo` until the cursor
reaches it, then invoke `onUpdated` once; equal target is a silent no-op. -/
def jump (map : ReducerMap V S) (index : Int) (h : HistoryState V) (s : S) :
    OpResult V S :=
  let target := min ((h.historyStack.length : Int) - 1) (max (-1) index)
  if target < h.currentStackIndex then
    match stepN (undoStep map) (h.currentStackIndex - target).toNat h s with
    | (h1, s1, none) => ⟨h1, s1, 1, none⟩
    | (h1, s1, some e) => ⟨h1, s1, 0, some e⟩
  else if h.currentStackIndex < target then
    match stepN (redoStep map) (target - h.currentStackIndex).toNat h s with
    | (h1, s1, none) => ⟨h1, s1, 1, none⟩
    | (h1, s1, some e) => ⟨h1, s1, 0, some e⟩
  else ⟨h, s, 0, none⟩

/-- The forward-and-record tail of `dispatch` (everything after the
duplication check): run the primary `redo`, build the children via
`redoForwardChildren`, and push.  The object literal passed to
`pushHistory` evaluates `undoArgs: reducer.redo(action.args)` before the
`children` mapper runs, so the primary forward precedes every child call. -/
def dispatchApply (map : ReducerMap V S) (max : Nat) (a : ActionInput V)
    (reducer : Reducer V S) (children : Option (List (ActionInput V)))
    (h : HistoryState V) (s : S) : OpResult V S :=
  let su := reducer.redo a.args s
  match children with
  | none =>
    let pn := pushHistory max ⟨a.name, a.args, su.2, a.seriesKey, none⟩ h
    ⟨pn.1, su.1, pn.2, none⟩
  | some cs =>
    match redoForwardChildren map cs su.1 with
    | (s2, .error e) => ⟨h, s2, 0, some e⟩
    | (s2, .ok saved) =>
      let pn := pushHistory max ⟨a.name, a.args, su.2, a.seriesKey, some saved⟩ h
      ⟨pn.1, s2, pn.2, none⟩

/-- `dispatch(action, children?)` from the source.  A null/undefined
`action` throws a `TypeError` on `action.name`; an unregistered primary
name throws from `getReducer`; the duplication check may silently return;
otherwise the action is applied and recorded. -/
def dispatch (map : ReducerMap V S) (max : Nat)
    (action : Option (ActionInput V))
    (children : Option (List (ActionInput V)))
    (h : HistoryState V) (s : S) : OpResult V S :=
  match action with
  | none => ⟨h, s, 0, some .typeError⟩
  | some a =>
    match map a.name with
    | none => ⟨h, s, 0, some (.notFoundReducer a.name)⟩
    | some reducer =>
      if reducer.ignoreDuplication ∧ h.currentStackIndex ≠ -1 then
        match stackAt h h.currentStackIndex with
        | none => ⟨h, s, 0, some .typeError⟩
        | some currentAction =>
          if currentAction.name == a.name &&
              checkDupFn reducer a.args currentAction.redoArgs then
            ⟨h, s, 0, none⟩
          else dispatchApply map max a reducer children h s
      else dispatchApply map max a reducer children h s

/-- `serialize()`. -/
def serialize (h : HistoryState V) : SerializedState V :=
  ⟨"0", h.historyStack, h.currentStackIndex⟩

/-- `deserialize(state)`: replace the stack (via `setHistoryStack`, which
invokes `onUpdated` once) and the cursor verbatim; no reducer calls and no
inspection of `version`. -/
def deserialize (st : SerializedState V) : HistoryState V × Nat :=
  (⟨st.stack, st.currentStackIndex⟩, 1)

/-- `clear()`: empty stack (one `onUpdated` via `setHistoryStack`),
cursor `-1`. -/
def clear : HistoryState V × Nat := ((⟨[], -1⟩ : HistoryState V), 1)

/-! ### Operation sequences -/

/-- One public engine call (the operations C9 quantifies over). -/
inductive Op (V : Type) where
  | dispatchOp (action : Option (ActionInput V))
      (children : Option (List (ActionInput V)))
  | undoOp
  | redoOp
  | jumpOp (index : Int)
  | clearOp
deriving Repr

/-- Run one call, keeping the module variables and the external state as
the call leaves them (mutations made before a throw persist, as they do for
the TypeScript module's variables). -/
def runOp (map : ReducerMap V S) (max : Nat) :
    Op V → HistoryState V → S → HistoryState V × S
  | .dispatchOp a c, h, s =>
      let r := dispatch map max a c h s
      (r.hist, r.state)
  | .undoOp, h, s =>
      let r := undo map h s
      (r.hist, r.state)
  | .redoOp, h, s =>
      let r := redo map h s
      (r.hist, r.state)
  | .jumpOp i, h, s =>
      let r := jump map i h s
      (r.hist, r.state)
  | .clearOp, _, s => ((clear (V := V)).1, s)

/-- Run a list of calls in order. -/
def runOps (map : ReducerMap V S) (max : Nat) :
    List (Op V) → HistoryState V → S → HistoryState V × S
  | [], h, s => (h, s)
  | op :: rest, h, s =>
      let hs := runOp map max op h s
      runOps map max rest hs.1 hs.2

/-! ### Branch predicates of `dispatch`, readable off the inputs -/

/-- The duplication-suppression condition of `dispatch`, exactly as the
source tests it: the resolved reducer has `ignoreDuplication`, the cursor
points at an existing entry whose name equals the action's, and the
duplication predicate accepts the new `args` against that entry's
`redoArgs`. -/
def dispatchSuppressed (map : ReducerMap V S) (a : ActionInput V)
    (h : HistoryState V) : Bool :=
  match map a.name with
  | none => false
  | some reducer =>
    if reducer.ignoreDuplication ∧ h.currentStackIndex ≠ -1 then
      match stackAt h h.currentStackIndex with
      | none => false
      | some currentAction =>
          currentAction.name == a.name &&
            checkDupFn reducer a.args currentAction.redoArgs
    else false

/-- The condition under which `pushHistory` takes the series-merge branch
(the one that goes through `setHistoryStack`): truthy `seriesKey`, the
truncated stack has an entry sharing it, and the first such entry is
compatible. -/
def pushMergeHit (savedAction : SavedAction V) (h : HistoryState V) : Bool :=
  keyTruthy savedAction.seriesKey &&
    match (splitArray (truncateStack h)
        (fun a => hasSameSeriesKey a.seriesKey savedAction.seriesKey)).1 with
    | [] => false
    | before :: _ => isSameTypeSavedAction before savedAction

/-- The entry `dispatch` hands to `pushHistory`, with the reducer-captured
`undoArgs` replaced by a placeholder (the action's own `args`): the
series-coalescing branch of `pushHistory` inspects only `name`,
`seriesKey` and the child names, never the argument payloads. -/
def protoSaved (a : ActionInput V)
    (children : Option (List (ActionInput V))) : SavedAction V :=
  ⟨a.name, a.args, a.args, a.seriesKey,
    children.map (fun cs => cs.map (fun c => ⟨c.name, c.args, c.args⟩))⟩

/-- Whether a `dispatch` of `a` with `children` against history `h` takes
the series-merge branch, readable off the dispatch inputs alone. -/
def dispatchMergeHit (a : ActionInput V)
    (children : Option (List (ActionInput V))) (h : HistoryState V) : Bool :=
  pushMergeHit (protoSaved a children) h

/-- The child names of an optional children list. -/
def childNames (c : Option (List (ChildSaved V))) : Option (List String) :=
  c.map (fun cs => cs.map (fun x => x.name))

/-! ### Concrete fixtures (the reducers of the repository's test suite:
`ope_a` writes the first component of a pair of counters capturing the
previous value as `undoArgs`, `ope_b` the second) -/

/-- `ope_a` of the test suite over `S = Nat × Nat`. -/
def opeA : Reducer Nat (Nat × Nat) :=
  { redo := fun a s => ((a, s.2), s.1), undo := fun u s => (u, s.2) }

/-- `ope_b` of the test suite. -/
def opeB : Reducer Nat (Nat × Nat) :=
  { redo := fun a s => ((s.1, a), s.2), undo := fun u s => (s.1, u) }

/-- The two-reducer registry of the test suite. -/
def tmap : ReducerMap Nat (Nat × Nat) :=
  defineReducer (defineReducer emptyMap "ope_a" opeA) "ope_b" opeB

/-- A duplicate-suppressing variant of `ope_a` over `S = Nat`
(`ignoreDuplication: true`, default duplication predicate). -/
def opeDup : Reducer Nat Nat :=
  { redo := fun a s => (a, s), undo := fun u _ => u,
    ignoreDuplication := true }

/-- Registry holding only `opeDup` under `"ope_a"`. -/
def dmap : ReducerMap Nat Nat := defineReducer emptyMap "ope_a" opeDup

/-- The spec's series-coalescing scenario, first dispatch:
`{name: "ope_a", args: 1, seriesKey: "k"}` from the empty history and
external state `(0, 0)`. -/
def seriesD1 : OpResult Nat (Nat × Nat) :=
  dispatch tmap 64 (some ⟨"ope_a", 1, some "k"⟩) none initialState (0, 0)

/-- Second dispatch of the scenario: `{name: "ope_b", args: 2}`. -/
def seriesD2 : OpResult Nat (Nat × Nat) :=
  dispatch tmap 64 (some ⟨"ope_b", 2, none⟩) none seriesD1.hist seriesD1.state

/-- Third dispatch of the scenario: `{name: "ope_a", args: 3, seriesKey: "k"}`,
which coalesces with the first entry. -/
def seriesD3 : OpResult Nat (Nat × Nat) :=
  dispatch tmap 64 (some ⟨"ope_a", 3, some "k"⟩) none seriesD2.hist seriesD2.state

/-- The cursor-validity invariant of the History State data model:
`cursor ∈ [-1, stack.length - 1]`. -/
def cursorInRange (h : HistoryState V) : Prop :=
  -1 ≤ h.currentStackIndex ∧
    h.currentStackIndex ≤ (h.historyStack.length : Int) - 1

/-- The forward chain invariant used for the undo-all/redo-all round trip:
from base state `b`, replaying the entries in stack order reaches `s`, and
each link's recorded `undoArgs` exactly reverse its replay.  Entries
recorded by plain dispatches satisfy the link property whenever every
reducer's `undo` inverts its `redo`. -/
def chainF (map : ReducerMap V S) : List (SavedAction V) → S → S → Prop
  | [], b, s => b = s
  | e :: rest, b, s =>
      ∃ s1, entryStepRedo map e b = (s1, none) ∧
        entryStepUndo map e s1 = (b, none) ∧ chainF map rest s1 s

/-- A reachable post-dispatch configuration: some base state chains up to
the current external state and the cursor sits on the top of the stack. -/
def goodRun (map : ReducerMap V S) (h : HistoryState V) (s : S) : Prop :=
  ∃ b, chainF map h.historyStack b s ∧
    h.currentStackIndex = (h.historyStack.length : Int) - 1

/-- An increment reducer over `S = Nat` whose `undo` restores the exact
prior state (it captures the pre-state as `undoArgs`), used to refute the
general round-trip claim in the presence of series coalescing. -/
def addR : Reducer Nat Nat :=
  { redo := fun a s => (s + a, s), undo := fun u _ => u }

/-- Registry holding only `addR` under `"add"`. -/
def amap : ReducerMap Nat Nat := defineReducer emptyMap "add" addR

/-- Two coalescing dispatches of `addR` (`args` 1 then 2, same series key)
from external state `0`: the merged entry keeps `undoArgs = 0` and
`redoArgs = 2`, while the state reaches `3`. -/
def addRun : HistoryState Nat × Nat :=
  runOps amap 64 [Op.dispatchOp (some ⟨"add", 1, some "k"⟩) none,
    Op.dispatchOp (some ⟨"add", 2, some "k"⟩) none] initialState 0

/-- The `dispatch` calls corresponding to a list of (action, children)
pairs. -/
def dispatchOps (ds : List (ActionInput V × Option (List (ActionInput V)))) :
    List (Op V) :=
  ds.map (fun d => Op.dispatchOp (some d.1) d.2)

/-! ## Helper lemmas -/

omit [DecidableEq V] in
/-- Equal length plus pointwise equal names along the zip is the same as
equal name lists. -/
theorem length_and_zip_names_iff :
    ∀ ac bc : List (ChildSaved V),
      (ac.length = bc.length ∧ ∀ p ∈ ac.zip bc, p.1.name = p.2.name) ↔
        ac.map (fun x => x.name) = bc.map (fun x => x.name) := by
  intro ac
  induction ac with
  | nil => intro bc; cases bc <;> simp
  | cons x xs ih =>
    intro bc
    cases bc with
    | nil => simp
    | cons y ys =>
      simp only [List.length_cons, List.zip_cons_cons, List.mem_cons,
        List.map_cons, List.cons.injEq]
      constructor
      · rintro ⟨hlen, hall⟩
        exact ⟨hall _ (Or.inl rfl),
          (ih ys).1 ⟨by omega, fun p hp => hall p (Or.inr hp)⟩⟩
      · rintro ⟨hxy, hmap⟩
        have hys := (ih ys).2 hmap
        refine ⟨by omega, ?_⟩
        rintro p (rfl | hp)
        · exact hxy
        · exact hys.2 p hp

omit [DecidableEq V] in
/-- `isSameTypeSavedAction` compares exactly the names and the child-name
lists. -/
theorem isSameTypeSavedAction_iff (a b : SavedAction V) :
    isSameTypeSavedAction a b = true ↔
      a.name = b.name ∧ childNames a.children = childNames b.children := by
  unfold isSameTypeSavedAction childNames
  cases ha : a.children <;> cases hb : b.children <;>
    simp [List.all_eq_true, ← length_and_zip_names_iff, and_assoc]

omit [DecidableEq V] in
/-- Compatibility only depends on the right argument's name and child
names. -/
theorem isSameTypeSavedAction_congr (x b₁ b₂ : SavedAction V)
    (hn : b₁.name = b₂.name)
    (hc : childNames b₁.children = childNames b₂.children) :
    isSameTypeSavedAction x b₁ = isSameTypeSavedAction x b₂ := by
  have h₁ := isSameTypeSavedAction_iff x b₁
  have h₂ := isSameTypeSavedAction_iff x b₂
  rw [hn, hc] at h₁
  cases hv : isSameTypeSavedAction x b₂
  · cases hw : isSameTypeSavedAction x b₁
    · rfl
    · exact absurd (h₂.2 (h₁.1 hw)) (by simp [hv])
  · exact h₁.2 (h₂.1 hv)

omit [DecidableEq V] in
/-- The merge branch of `pushHistory` only depends on the pushed entry's
`seriesKey`, name and child names. -/
theorem pushMergeHit_congr (b₁ b₂ : SavedAction V) (h : HistoryState V)
    (hs : b₁.seriesKey = b₂.seriesKey) (hn : b₁.name = b₂.name)
    (hc : childNames b₁.children = childNames b₂.children) :
    pushMergeHit b₁ h = pushMergeHit b₂ h := by
  unfold pushMergeHit
  rw [hs]
  cases hsplit : (splitArray (truncateStack h)
      (fun a => hasSameSeriesKey a.seriesKey b₂.seriesKey)).1 with
  | nil => rfl
  | cons before rest =>
      simp only [hsplit]
      rw [isSameTypeSavedAction_congr before b₁ b₂ hn hc]

omit [DecidableEq V] in
/-- `pushHistory` invokes `onUpdated` twice when the series-merge branch is
taken (once from `setHistoryStack`, once at the end of `pushHistory`), and
once otherwise. -/
theorem pushHistory_notified (max : Nat) (savedAction : SavedAction V)
    (h : HistoryState V) :
    (pushHistory max savedAction h).2 =
      (if pushMergeHit savedAction h then 1 else 0) + 1 := by
  unfold pushHistory pushMergeHit
  cases hk : keyTruthy savedAction.seriesKey
  · simp [hk]
  · cases hsplit : (splitArray (truncateStack h)
        (fun a => hasSameSeriesKey a.seriesKey savedAction.seriesKey)).1 with
    | nil => simp [hk, hsplit]
    | cons before rest =>
        cases hcompat : isSameTypeSavedAction before savedAction <;>
          simp [hk, hsplit, hcompat]

omit [DecidableEq V] in
/-- Successful child recording preserves the child names in order. -/
theorem redoForwardChildren_names (map : ReducerMap V S) :
    ∀ (cs : List (ActionInput V)) (s s' : S) (saved : List (ChildSaved V)),
      redoForwardChildren map cs s = (s', .ok saved) →
      saved.map (fun x => x.name) = cs.map (fun c => c.name) := by
  intro cs
  induction cs with
  | nil =>
    intro s s' saved hrun
    unfold redoForwardChildren at hrun
    cases hrun
    rfl
  | cons c rest ih =>
    intro s s' saved hrun
    unfold redoForwardChildren at hrun
    cases hm : map c.name with
    | none => rw [hm] at hrun; cases hrun
    | some r =>
      rw [hm] at hrun
      simp only at hrun
      cases hrec : redoForwardChildren map rest (r.redo c.args s).1 with
      | mk s2 res =>
        cases res with
        | error e => rw [hrec] at hrun; simp at hrun
        | ok cs2 =>
          rw [hrec] at hrun
          simp only [Prod.mk.injEq, Except.ok.injEq] at hrun
          obtain ⟨rfl, rfl⟩ := hrun
          simp [ih _ _ _ hrec]

omit [DecidableEq V] in
/-- Notification count of the forward-and-record tail of `dispatch`. -/
theorem dispatchApply_notified (map : ReducerMap V S) (max : Nat)
    (a : ActionInput V) (reducer : Reducer V S)
    (children : Option (List (ActionInput V)))
    (h : HistoryState V) (s : S)
    (he : (dispatchApply map max a reducer children h s).err = none) :
    (dispatchApply map max a reducer children h s).notified =
      if dispatchMergeHit a children h then 2 else 1 := by
  unfold dispatchApply at he ⊢
  cases children with
  | none =>
    dsimp only at he ⊢
    rw [pushHistory_notified]
    have hb : pushMergeHit
        (⟨a.name, a.args, (reducer.redo a.args s).2, a.seriesKey, none⟩ :
          SavedAction V) h = dispatchMergeHit a none h :=
      pushMergeHit_congr _ _ h rfl rfl rfl
    rw [hb]
    cases dispatchMergeHit a none h <;> simp
  | some cs =>
    dsimp only at he ⊢
    cases hrec : redoForwardChildren map cs (reducer.redo a.args s).1 with
    | mk s2 res =>
      cases res with
      | error e => rw [hrec] at he; simp at he
      | ok saved =>
        dsimp only
        rw [pushHistory_notified]
        have names := redoForwardChildren_names map cs _ _ _ hrec
        have hb : pushMergeHit
            (⟨a.name, a.args, (reducer.redo a.args s).2, a.seriesKey,
              some saved⟩ : SavedAction V) h = dispatchMergeHit a (some cs) h := by
          refine pushMergeHit_congr _ _ h rfl rfl ?_
          simp [childNames, protoSaved, names, List.map_map]
        rw [hb]
        cases dispatchMergeHit a (some cs) h <;> simp

/-- A dispatch that does not hit the duplication branch reduces to its
forward-and-record tail. -/
theorem dispatch_plain (map : ReducerMap V S) (max : Nat) (a : ActionInput V)
    (r : Reducer V S) (h : HistoryState V) (s : S)
    (hr : map a.name = some r)
    (hns : ¬(r.ignoreDuplication = true ∧ h.currentStackIndex ≠ -1)) :
    dispatch map max (some a) none h s =
      ⟨(pushHistory max ⟨a.name, a.args, (r.redo a.args s).2, a.seriesKey, none⟩ h).1,
        (r.redo a.args s).1,
        (pushHistory max ⟨a.name, a.args, (r.redo a.args s).2, a.seriesKey, none⟩ h).2,
        none⟩ := by
  unfold dispatch
  dsimp only
  rw [hr]
  dsimp only
  rw [if_neg hns]
  unfold dispatchApply
  dsimp only

omit [DecidableEq V] in
/-- A push with a non-truthy `seriesKey`, the cursor at the top, and room
left appends the entry and moves the cursor to it. -/
theorem pushHistory_plain_nocap (max : Nat) (savedAction : SavedAction V)
    (h : HistoryState V)
    (hk : keyTruthy savedAction.seriesKey = false)
    (htop : ¬ h.currentStackIndex < (h.historyStack.length : Int) - 1)
    (hlen : h.historyStack.length + 1 ≤ max) :
    pushHistory max savedAction h =
      (⟨h.historyStack ++ [savedAction], (h.historyStack.length : Int)⟩, 1) := by
  unfold pushHistory truncateStack
  rw [if_neg htop]
  simp only [hk, Bool.false_eq_true, if_false]
  rw [if_neg (by simp only [List.length_append, List.length_singleton]; omega)]
  simp

omit [DecidableEq V] in
/-- A push with a non-truthy `seriesKey`, the cursor at the top, and the
stack full evicts the oldest entry (index 0). -/
theorem pushHistory_plain_cap (max : Nat) (savedAction : SavedAction V)
    (h : HistoryState V)
    (hk : keyTruthy savedAction.seriesKey = false)
    (htop : ¬ h.currentStackIndex < (h.historyStack.length : Int) - 1)
    (hlen : h.historyStack.length + 1 > max) :
    pushHistory max savedAction h =
      (⟨(h.historyStack ++ [savedAction]).tail,
        (((h.historyStack ++ [savedAction]).tail.length : Int)) - 1⟩, 1) := by
  unfold pushHistory truncateStack
  rw [if_neg htop]
  simp only [hk, Bool.false_eq_true, if_false]
  rw [if_pos (by simp only [List.length_append, List.length_singleton]; omega)]

omit [DecidableEq V] in
/-- A successful `undo()` of a childless entry whose reducer is registered. -/
theorem undo_success (map : ReducerMap V S) (h : HistoryState V) (s : S)
    (cur : SavedAction V) (r : Reducer V S)
    (hpos : -1 < h.currentStackIndex)
    (hcur : stackAt h h.currentStackIndex = some cur)
    (hchild : cur.children = none)
    (hr : map cur.name = some r) :
    undo map h s =
      ⟨⟨h.historyStack, h.currentStackIndex - 1⟩, r.undo cur.undoArgs s, 1, none⟩ := by
  unfold undo undoStep entryStepUndo
  rw [if_pos hpos, hcur]
  dsimp only
  rw [hchild]
  dsimp only [Option.getD_none, List.reverse_nil]
  unfold undoChildrenRun
  rw [hr]

/-- `undo()` at cursor `-1` is a no-op, so iterating it stays put. -/
theorem undo_noop_bottom (map : ReducerMap V S) (max : Nat) :
    ∀ (n : Nat) (st : List (SavedAction V)) (s : S),
      runOps map max (List.replicate n Op.undoOp) ⟨st, -1⟩ s = (⟨st, -1⟩, s) := by
  intro n
  induction n with
  | zero => intro st s; rfl
  | succ m ih =>
    intro st s
    simp only [List.replicate_succ]
    unfold runOps runOp undo
    dsimp only
    rw [if_neg (by omega : ¬(-1 : Int) < (-1 : Int))]
    exact ih st s

omit [DecidableEq V] in
/-- A successful `_undo` keeps the stack and decrements the cursor. -/
theorem undoStep_success_shape (map : ReducerMap V S) (h : HistoryState V)
    (s : S) (h1 : HistoryState V) (s1 : S)
    (hrun : undoStep map h s = (h1, s1, none)) :
    h1 = ⟨h.historyStack, h.currentStackIndex - 1⟩ := by
  unfold undoStep at hrun
  cases hcur : stackAt h h.currentStackIndex with
  | none => rw [hcur] at hrun; simp at hrun
  | some cur =>
    rw [hcur] at hrun
    dsimp only at hrun
    cases hstep : entryStepUndo map cur s with
    | mk s2 e2 =>
      rw [hstep] at hrun
      cases e2 with
      | none => simp only [Prod.mk.injEq] at hrun; exact hrun.1.symm
      | some e => simp at hrun

omit [DecidableEq V] in
/-- A successful `_redo` keeps the stack and increments the cursor. -/
theorem redoStep_success_shape (map : ReducerMap V S) (h : HistoryState V)
    (s : S) (h1 : HistoryState V) (s1 : S)
    (hrun : redoStep map h s = (h1, s1, none)) :
    h1 = ⟨h.historyStack, h.currentStackIndex + 1⟩ := by
  unfold redoStep at hrun
  cases hcur : stackAt h (h.currentStackIndex + 1) with
  | none => rw [hcur] at hrun; simp at hrun
  | some cur =>
    rw [hcur] at hrun
    dsimp only at hrun
    cases hstep : entryStepRedo map cur s with
    | mk s2 e2 =>
      rw [hstep] at hrun
      cases e2 with
      | none => simp only [Prod.mk.injEq] at hrun; exact hrun.1.symm
      | some e => simp at hrun

omit [DecidableEq V] in
/-- `n` successful `_undo` steps keep the stack and subtract `n` from the
cursor. -/
theorem stepN_undo_success (map : ReducerMap V S) :
    ∀ (n : Nat) (h : HistoryState V) (s : S) (h1 : HistoryState V) (s1 : S),
      stepN (undoStep map) n h s = (h1, s1, none) →
      h1 = ⟨h.historyStack, h.currentStackIndex - n⟩ := by
  intro n
  induction n with
  | zero =>
    intro h s h1 s1 hrun
    unfold stepN at hrun
    simp only [Prod.mk.injEq] at hrun
    simp [← hrun.1]
  | succ m ih =>
    intro h s h1 s1 hrun
    unfold stepN at hrun
    cases hstep : undoStep map h s with
    | mk h2 tl =>
      cases tl with
      | mk s2 e2 =>
        rw [hstep] at hrun
        cases e2 with
        | none =>
          have hshape := undoStep_success_shape map h s h2 s2 hstep
          have := ih h2 s2 h1 s1 hrun
          subst hshape
          rw [this]
          simp only [HistoryState.mk.injEq, true_and]
          push_cast
          ring
        | some e => simp at hrun

omit [DecidableEq V] in
/-- `n` successful `_redo` steps keep the stack and add `n` to the cursor. -/
theorem stepN_redo_success (map : ReducerMap V S) :
    ∀ (n : Nat) (h : HistoryState V) (s : S) (h1 : HistoryState V) (s1 : S),
      stepN (redoStep map) n h s = (h1, s1, none) →
      h1 = ⟨h.historyStack, h.currentStackIndex + n⟩ := by
  intro n
  induction n with
  | zero =>
    intro h s h1 s1 hrun
    unfold stepN at hrun
    simp only [Prod.mk.injEq] at hrun
    simp [← hrun.1]
  | succ m ih =>
    intro h s h1 s1 hrun
    unfold stepN at hrun
    cases hstep : redoStep map h s with
    | mk h2 tl =>
      cases tl with
      | mk s2 e2 =>
        rw [hstep] at hrun
        cases e2 with
        | none =>
          have hshape := redoStep_success_shape map h s h2 s2 hstep
          have := ih h2 s2 h1 s1 hrun
          subst hshape
          rw [this]
          simp only [HistoryState.mk.injEq, true_and]
          push_cast
          ring
        | some e => simp at hrun

/-! ## Claims -/

/-- **C5** (code bug in the source).  The spec and the repository's own
CHANGELOG (0.0.7: "`dispatch` can accept `undefined` as an action, and it
is just ignored") require a null/omitted action to be a complete no-op, but
`dispatch` in the source reads `action.name` unconditionally, so a
null/undefined action throws a `TypeError`.  This theorem evaluates the
code at the failing input: no forward runs, no state changes and no
notification fires, but the call fails instead of returning normally. -/
theorem dispatch_null_action_throws (map : ReducerMap V S) (max : Nat)
    (children : Option (List (ActionInput V))) (h : HistoryState V) (s : S) :
    dispatch map max none children h s = ⟨h, s, 0, some .typeError⟩ := rfl

/-- **C6 counterexample**.  A snapshot whose `version` is `"1"` is accepted
by `deserialize` and its stack and cursor are installed verbatim (with one
update notification); no incompatible-snapshot failure is possible, because
`deserialize` never reads the `version` field. -/
theorem deserialize_ignores_version_cex :
    (deserialize (⟨"1", [⟨"ope_a", 1, 0, none, none⟩], 0⟩ :
        SerializedState Nat)).1
      = ⟨[⟨"ope_a", 1, 0, none, none⟩], 0⟩ ∧
    (deserialize (⟨"1", [⟨"ope_a", 1, 0, none, none⟩], 0⟩ :
        SerializedState Nat)).2 = 1 :=
  ⟨rfl, rfl⟩

omit [DecidableEq V] in
/-- **C6 (amended)**.  `deserialize` performs no runtime version check:
for every snapshot, whatever its `version` string, it replaces the stack
and cursor with the snapshot's values and fires exactly one update
notification.  (Only the static TypeScript annotation `version: '0'`
restricts the field.) -/
theorem deserialize_no_version_check (st : SerializedState V) :
    deserialize st = (⟨st.stack, st.currentStackIndex⟩, 1) := rfl

/-- **C10**.  A duplicate-suppressed dispatch is a complete frame: when the
resolved reducer has `ignoreDuplication`, the cursor points at an entry of
the same name, and the duplication predicate accepts the new `args`
against that entry's `redoArgs`, `dispatch` returns before the redo-branch
truncation, so the whole history state (including entries beyond the
cursor retained for redo), the external state and the notification count
are untouched. -/
theorem dispatch_suppressed_noop (map : ReducerMap V S) (max : Nat)
    (a : ActionInput V) (children : Option (List (ActionInput V)))
    (h : HistoryState V) (s : S) (r : Reducer V S) (cur : SavedAction V)
    (hr : map a.name = some r)
    (hid : r.ignoreDuplication = true)
    (hc : h.currentStackIndex ≠ -1)
    (hcur : stackAt h h.currentStackIndex = some cur)
    (hname : cur.name = a.name)
    (hdup : checkDupFn r a.args cur.redoArgs = true) :
    dispatch map max (some a) children h s = ⟨h, s, 0, none⟩ := by
  unfold dispatch
  dsimp only
  rw [hr]
  dsimp only
  rw [if_pos ⟨hid, hc⟩, hcur]
  dsimp only
  have hcond : (cur.name == a.name && checkDupFn r a.args cur.redoArgs) = true := by
    rw [hname, hdup]; simp
  rw [if_pos hcond]

/-- **C10 witness**: with the suppressing reducer, a two-entry stack and
the cursor at index 0 (one entry retained beyond it for redo),
re-dispatching the entry-at-cursor's action changes nothing — in
particular the redo entry at index 1 survives. -/
theorem dispatch_suppressed_noop_witness :
    dispatch dmap 64 (some ⟨"ope_a", 1, none⟩) none
        ⟨[⟨"ope_a", 1, 0, none, none⟩, ⟨"ope_a", 2, 1, none, none⟩], 0⟩
        (5 : Nat)
      = ⟨⟨[⟨"ope_a", 1, 0, none, none⟩, ⟨"ope_a", 2, 1, none, none⟩], 0⟩,
          5, 0, none⟩ :=
  dispatch_suppressed_noop dmap 64 ⟨"ope_a", 1, none⟩ none
    ⟨[⟨"ope_a", 1, 0, none, none⟩, ⟨"ope_a", 2, 1, none, none⟩], 0⟩ 5
    opeDup ⟨"ope_a", 1, 0, none, none⟩ rfl rfl (by decide) rfl rfl (by decide)

/-- **C1 counterexample**.  The third dispatch of the spec's own series
scenario (`{ope_a,1,k}`, `{ope_b,2}`, `{ope_a,3,k}`) succeeds, is not
duplicate-suppressed, and invokes `onUpdated` twice — once from
`setHistoryStack` in the series-merge branch and once at the end of
`pushHistory` — refuting "exactly once ... including when the dispatched
action carries a seriesKey that coalesces". -/
theorem dispatch_double_notification_cex :
    seriesD3.err = none ∧
    dispatchSuppressed tmap ⟨"ope_a", 3, some "k"⟩ seriesD2.hist = false ∧
    seriesD3.notified = 2 := by
  refine ⟨by decide, by decide, by decide⟩

/-- **C1 (amended)**.  Every successful, non-duplicate-suppressed dispatch
invokes `onUpdated` exactly once, except when the action's `seriesKey`
coalesces with a compatible existing entry (the `setHistoryStack` merge
branch), in which case it is invoked exactly twice. -/
theorem dispatch_notified_count (map : ReducerMap V S) (max : Nat)
    (a : ActionInput V) (children : Option (List (ActionInput V)))
    (h : HistoryState V) (s : S)
    (hsup : dispatchSuppressed map a h = false)
    (he : (dispatch map max (some a) children h s).err = none) :
    (dispatch map max (some a) children h s).notified =
      if dispatchMergeHit a children h then 2 else 1 := by
  unfold dispatch at he ⊢
  unfold dispatchSuppressed at hsup
  dsimp only at he ⊢
  cases hm : map a.name with
  | none => rw [hm] at he; simp at he
  | some reducer =>
    rw [hm] at hsup he
    dsimp only at he hsup ⊢
    by_cases hcond : reducer.ignoreDuplication = true ∧ h.currentStackIndex ≠ -1
    · rw [if_pos hcond] at he hsup ⊢
      cases hcur : stackAt h h.currentStackIndex with
      | none => rw [hcur] at he; simp at he
      | some cur =>
        rw [hcur] at he hsup
        dsimp only at he hsup ⊢
        simp only [hsup, Bool.false_eq_true, if_false] at he ⊢
        exact dispatchApply_notified map max a reducer children h s he
    · rw [if_neg hcond] at he ⊢
      exact dispatchApply_notified map max a reducer children h s he

/-- **C1 amended witness**: the plain second dispatch of the series
scenario (no seriesKey, no merge) notifies exactly once. -/
theorem dispatch_notified_count_witness :
    dispatchSuppressed tmap ⟨"ope_b", 2, none⟩ seriesD1.hist = false ∧
    seriesD2.notified = (if dispatchMergeHit (V := Nat) ⟨"ope_b", 2, none⟩
      none seriesD1.hist then 2 else 1) :=
  ⟨by decide,
    dispatch_notified_count tmap 64 ⟨"ope_b", 2, none⟩ none seriesD1.hist
      seriesD1.state (by decide) (by decide)⟩

omit [DecidableEq V] in
/-- **C2**.  Series coalescing: when the pushed entry has a truthy
`seriesKey`, the (truncated) stack contains entries sharing it, and the
first such entry is compatible, `pushHistory` removes every entry sharing
the key, appends the new entry last with its `undoArgs` (and each child's
`undoArgs`) replaced by the first matching entry's, and leaves the cursor
on the appended entry; in particular the spec's scenario
(`{ope_a,1,k}`, `{ope_b,2}`, `{ope_a,3,k}`) ends with the 2-entry stack
`[ope_b(2), ope_a(3, undoArgs of the first ope_a)]` and cursor `1`. -/
theorem series_coalescing_replaces :
    (∀ (max : Nat) (savedAction : SavedAction V) (h : HistoryState V)
        (before : SavedAction V) (rest : List (SavedAction V)),
      keyTruthy savedAction.seriesKey = true →
      (splitArray (truncateStack h)
          (fun a => hasSameSeriesKey a.seriesKey savedAction.seriesKey)).1
        = before :: rest →
      isSameTypeSavedAction before savedAction = true →
      (splitArray (truncateStack h)
          (fun a => hasSameSeriesKey a.seriesKey savedAction.seriesKey)).2.length
          + 1 ≤ max →
      (pushHistory max savedAction h).1.historyStack
          = (splitArray (truncateStack h)
              (fun a => hasSameSeriesKey a.seriesKey savedAction.seriesKey)).2
            ++ [mergeSaved before savedAction] ∧
        (pushHistory max savedAction h).1.currentStackIndex
          = ((splitArray (truncateStack h)
              (fun a => hasSameSeriesKey a.seriesKey savedAction.seriesKey)).2.length
              : Int)) ∧
    seriesD3.hist.historyStack
        = [⟨"ope_b", 2, 0, none, none⟩, ⟨"ope_a", 3, 0, some "k", none⟩] ∧
    seriesD3.hist.currentStackIndex = 1 := by
  refine ⟨?_, by decide, by decide⟩
  intro max savedAction h before rest hk hsplit hcompat hlen
  unfold pushHistory
  simp only [hk, hsplit, hcompat, if_true]
  have hnotgt : ¬ ((splitArray (truncateStack h)
      (fun a => hasSameSeriesKey a.seriesKey savedAction.seriesKey)).2
        ++ [mergeSaved before savedAction]).length > max := by
    simp only [List.length_append, List.length_singleton]
    omega
  rw [if_neg hnotgt]
  refine ⟨rfl, ?_⟩
  simp only [List.length_append, List.length_singleton]
  push_cast
  ring

/-- **C2 witness**: the merge of the scenario's third push, at its concrete
pre-push history `[ope_a(1,k), ope_b(2)]` with cursor `1`. -/
theorem series_coalescing_replaces_witness :
    keyTruthy (some "k") = true ∧
    (pushHistory 64 (⟨"ope_a", 3, 1, some "k", none⟩ : SavedAction Nat)
        ⟨[⟨"ope_a", 1, 0, some "k", none⟩, ⟨"ope_b", 2, 0, none, none⟩], 1⟩).1.historyStack
      = [⟨"ope_b", 2, 0, none, none⟩]
        ++ [mergeSaved ⟨"ope_a", 1, 0, some "k", none⟩
              ⟨"ope_a", 3, 1, some "k", none⟩] :=
  ⟨by decide,
    ((series_coalescing_replaces (V := Nat)).1 64
      ⟨"ope_a", 3, 1, some "k", none⟩
      ⟨[⟨"ope_a", 1, 0, some "k", none⟩, ⟨"ope_b", 2, 0, none, none⟩], 1⟩
      ⟨"ope_a", 1, 0, some "k", none⟩ []
      (by decide) (by decide) (by decide) (by decide)).1⟩

/-- **C7**.  With `max = 2`, dispatching three plain actions (registered,
non-suppressing, without truthy series keys) leaves exactly the two newest
entries — the oldest is evicted from index 0 — with the cursor on the
just-appended newest entry, and repeated `undo()` can never drive the
external state below `s1`, the state prior to the oldest retained entry:
after one undo the state is `s2`, and after two or more undos it stays at
`s1`. -/
theorem capacity_cap_two (map : ReducerMap V S)
    (a1 a2 a3 : ActionInput V) (r1 r2 r3 : Reducer V S)
    (s0 s1 s2 s3 : S) (u1 u2 u3 : V)
    (h1 : map a1.name = some r1) (h2 : map a2.name = some r2)
    (h3 : map a3.name = some r3)
    (hd2 : r2.ignoreDuplication = false) (hd3 : r3.ignoreDuplication = false)
    (hk1 : keyTruthy a1.seriesKey = false) (hk2 : keyTruthy a2.seriesKey = false)
    (hk3 : keyTruthy a3.seriesKey = false)
    (hs1 : r1.redo a1.args s0 = (s1, u1)) (hs2 : r2.redo a2.args s1 = (s2, u2))
    (hs3 : r3.redo a3.args s2 = (s3, u3))
    (hund3 : r3.undo u3 s3 = s2) (hund2 : r2.undo u2 s2 = s1) :
    (runOps map 2 [Op.dispatchOp (some a1) none, Op.dispatchOp (some a2) none,
        Op.dispatchOp (some a3) none] initialState s0).1
      = ⟨[⟨a2.name, a2.args, u2, a2.seriesKey, none⟩,
          ⟨a3.name, a3.args, u3, a3.seriesKey, none⟩], 1⟩ ∧
    (runOps map 2 [Op.dispatchOp (some a1) none, Op.dispatchOp (some a2) none,
        Op.dispatchOp (some a3) none] initialState s0).2 = s3 ∧
    ∀ k : Nat,
      (runOps map 2 (List.replicate k Op.undoOp)
        ⟨[⟨a2.name, a2.args, u2, a2.seriesKey, none⟩,
          ⟨a3.name, a3.args, u3, a3.seriesKey, none⟩], 1⟩ s3).2
      = if k = 0 then s3 else if k = 1 then s2 else s1 := by
  have hD1 : dispatch map 2 (some a1) none initialState s0
      = ⟨⟨[⟨a1.name, a1.args, u1, a1.seriesKey, none⟩], 0⟩, s1, 1, none⟩ := by
    rw [dispatch_plain map 2 a1 r1 initialState s0 h1
      (by rintro ⟨_, hne⟩; exact hne rfl)]
    rw [pushHistory_plain_nocap 2 _ initialState hk1 (by norm_num [initialState])
      (by norm_num [initialState])]
    rw [hs1]
    simp [initialState]
  have hD2 : dispatch map 2 (some a2) none
      ⟨[⟨a1.name, a1.args, u1, a1.seriesKey, none⟩], 0⟩ s1
      = ⟨⟨[⟨a1.name, a1.args, u1, a1.seriesKey, none⟩,
           ⟨a2.name, a2.args, u2, a2.seriesKey, none⟩], 1⟩, s2, 1, none⟩ := by
    rw [dispatch_plain map 2 a2 r2 _ s1 h2 (by rw [hd2]; rintro ⟨hx, _⟩; cases hx)]
    rw [pushHistory_plain_nocap 2 _ _ hk2 (by norm_num) (by norm_num)]
    rw [hs2]
    simp
  have hD3 : dispatch map 2 (some a3) none
      ⟨[⟨a1.name, a1.args, u1, a1.seriesKey, none⟩,
        ⟨a2.name, a2.args, u2, a2.seriesKey, none⟩], 1⟩ s2
      = ⟨⟨[⟨a2.name, a2.args, u2, a2.seriesKey, none⟩,
           ⟨a3.name, a3.args, u3, a3.seriesKey, none⟩], 1⟩, s3, 1, none⟩ := by
    rw [dispatch_plain map 2 a3 r3 _ s2 h3 (by rw [hd3]; rintro ⟨hx, _⟩; cases hx)]
    rw [pushHistory_plain_cap 2 _ _ hk3 (by norm_num) (by norm_num)]
    rw [hs3]
    simp
  have hU1 : undo map
      ⟨[⟨a2.name, a2.args, u2, a2.seriesKey, none⟩,
        ⟨a3.name, a3.args, u3, a3.seriesKey, none⟩], 1⟩ s3
      = ⟨⟨[⟨a2.name, a2.args, u2, a2.seriesKey, none⟩,
           ⟨a3.name, a3.args, u3, a3.seriesKey, none⟩], 0⟩, s2, 1, none⟩ := by
    rw [undo_success map _ s3 ⟨a3.name, a3.args, u3, a3.seriesKey, none⟩ r3
      (by norm_num) (by rfl) rfl h3]
    rw [hund3]
    norm_num
  have hU2 : undo map
      ⟨[⟨a2.name, a2.args, u2, a2.seriesKey, none⟩,
        ⟨a3.name, a3.args, u3, a3.seriesKey, none⟩], 0⟩ s2
      = ⟨⟨[⟨a2.name, a2.args, u2, a2.seriesKey, none⟩,
           ⟨a3.name, a3.args, u3, a3.seriesKey, none⟩], -1⟩, s1, 1, none⟩ := by
    rw [undo_success map _ s2 ⟨a2.name, a2.args, u2, a2.seriesKey, none⟩ r2
      (by norm_num) (by rfl) rfl h2]
    rw [hund2]
    norm_num
  refine ⟨?_, ?_, ?_⟩
  · simp only [runOps, runOp]
    rw [hD1]
    dsimp only
    rw [hD2]
    dsimp only
    rw [hD3]
  · simp only [runOps, runOp]
    rw [hD1]
    dsimp only
    rw [hD2]
    dsimp only
    rw [hD3]
  · intro k
    match k with
    | 0 => rfl
    | 1 =>
      simp only [List.replicate_succ, List.replicate_zero, runOps, runOp]
      rw [hU1]
      simp
    | (n + 2) =>
      simp only [List.replicate_succ, runOps, runOp]
      rw [hU1]
      dsimp only
      rw [hU2]
      dsimp only
      rw [undo_noop_bottom map 2 n]
      simp

/-- **C7 witness**: the test suite's scenario — `ope_a` with args 1, 2, 3,
`max = 2`, external state starting at `(0,0)` — retains `[ope_a(2), ope_a(3)]`
with cursor 1, and a third undo cannot go below `(1,0)`, the state prior to
the oldest retained entry. -/
theorem capacity_cap_two_witness :
    (runOps tmap 2 [Op.dispatchOp (some ⟨"ope_a", 1, none⟩) none,
        Op.dispatchOp (some ⟨"ope_a", 2, none⟩) none,
        Op.dispatchOp (some ⟨"ope_a", 3, none⟩) none] initialState ((0, 0) : Nat × Nat)).1
      = ⟨[⟨"ope_a", 2, 1, none, none⟩, ⟨"ope_a", 3, 2, none, none⟩], 1⟩ ∧
    (runOps tmap 2 (List.replicate 3 Op.undoOp)
        ⟨[⟨"ope_a", 2, 1, none, none⟩, ⟨"ope_a", 3, 2, none, none⟩], 1⟩
        ((3, 0) : Nat × Nat)).2 = (1, 0) := by
  have hmain := capacity_cap_two tmap
    ⟨"ope_a", 1, none⟩ ⟨"ope_a", 2, none⟩ ⟨"ope_a", 3, none⟩ opeA opeA opeA
    (0, 0) (1, 0) (2, 0) (3, 0) 0 1 2
    rfl rfl rfl rfl rfl rfl rfl rfl rfl rfl rfl rfl rfl
  exact ⟨hmain.1, by simpa using hmain.2.2 3⟩

omit [DecidableEq V] in
/-- **C8**.  `jump(index)` clamps the target to `[-1, stack.length - 1]`;
a jump to the current cursor is a silent no-op, and otherwise a successful
jump repeats the internal undo/redo step until the cursor equals the
clamped target (the stack itself never changes) and fires exactly one
update notification, whatever the distance. -/
theorem jump_clamps_single_notification (map : ReducerMap V S) (index : Int)
    (h : HistoryState V) (s : S)
    (he : (jump map index h s).err = none) :
    -1 ≤ min ((h.historyStack.length : Int) - 1) (max (-1) index) ∧
    min ((h.historyStack.length : Int) - 1) (max (-1) index)
      ≤ (h.historyStack.length : Int) - 1 ∧
    (jump map index h s).hist.historyStack = h.historyStack ∧
    (jump map index h s).hist.currentStackIndex
      = min ((h.historyStack.length : Int) - 1) (max (-1) index) ∧
    (jump map index h s).notified =
      if min ((h.historyStack.length : Int) - 1) (max (-1) index)
          = h.currentStackIndex then 0 else 1 := by
  have hlen : (0 : Int) ≤ (h.historyStack.length : Int) := by positivity
  refine ⟨by omega, by omega, ?_⟩
  unfold jump at he ⊢
  by_cases hlt : min ((h.historyStack.length : Int) - 1) (max (-1) index)
      < h.currentStackIndex
  · rw [if_pos hlt] at he ⊢
    cases hres : stepN (undoStep map)
        (h.currentStackIndex
          - min ((h.historyStack.length : Int) - 1) (max (-1) index)).toNat h s with
    | mk h1 tl =>
      cases tl with
      | mk s1 e1 =>
        cases e1 with
        | some e => rw [hres] at he; simp at he
        | none =>
          dsimp only at he ⊢
          have hshape := stepN_undo_success map _ h s h1 s1 hres
          subst hshape
          refine ⟨rfl, ?_, ?_⟩
          · dsimp only
            omega
          · dsimp only
            rw [if_neg (by omega)]
  · rw [if_neg hlt] at he ⊢
    by_cases hgt : h.currentStackIndex
        < min ((h.historyStack.length : Int) - 1) (max (-1) index)
    · rw [if_pos hgt] at he ⊢
      cases hres : stepN (redoStep map)
          (min ((h.historyStack.length : Int) - 1) (max (-1) index)
            - h.currentStackIndex).toNat h s with
      | mk h1 tl =>
        cases tl with
        | mk s1 e1 =>
          cases e1 with
          | some e => rw [hres] at he; simp at he
          | none =>
            dsimp only at he ⊢
            have hshape := stepN_redo_success map _ h s h1 s1 hres
            subst hshape
            refine ⟨rfl, ?_, ?_⟩
            · dsimp only
              omega
            · dsimp only
              rw [if_neg (by omega)]
    · rw [if_neg hgt]
      refine ⟨rfl, ?_, ?_⟩
      · dsimp only
        omega
      · dsimp only
        rw [if_pos (by omega)]

/-- **C8 witness**: on the two-entry test history at cursor 1, `jump(-5)`
clamps to `-1`, lands there with the stack intact, and notifies exactly
once. -/
theorem jump_clamps_single_notification_witness :
    (jump tmap (-5)
        (⟨[⟨"ope_a", 1, 0, none, none⟩, ⟨"ope_a", 2, 1, none, none⟩], 1⟩ :
          HistoryState Nat) ((2, 0) : Nat × Nat)).hist.currentStackIndex
      = min (((2 : Nat) : Int) - 1) (max (-1) (-5)) ∧
    (jump tmap (-5)
        (⟨[⟨"ope_a", 1, 0, none, none⟩, ⟨"ope_a", 2, 1, none, none⟩], 1⟩ :
          HistoryState Nat) ((2, 0) : Nat × Nat)).notified = 1 := by
  have hmain := jump_clamps_single_notification tmap (-5)
    ⟨[⟨"ope_a", 1, 0, none, none⟩, ⟨"ope_a", 2, 1, none, none⟩], 1⟩
    ((2, 0) : Nat × Nat) (by decide)
  refine ⟨by simpa using hmain.2.2.2.1, by simpa using hmain.2.2.2.2⟩

omit [DecidableEq V] in
/-- The cursor always ends on the just-pushed top of the stack. -/
theorem pushHistory_cursor_top (max : Nat) (savedAction : SavedAction V)
    (h : HistoryState V) :
    (pushHistory max savedAction h).1.currentStackIndex
      = (((pushHistory max savedAction h).1.historyStack.length : Int)) - 1 := rfl

omit [DecidableEq V] in
/-- If the forward-and-record tail of `dispatch` throws, the history state
is unchanged and no notification has fired (the external state may have
been mutated by forwards that already ran). -/
theorem dispatchApply_error_frame (map : ReducerMap V S) (max : Nat)
    (a : ActionInput V) (reducer : Reducer V S)
    (children : Option (List (ActionInput V))) (h : HistoryState V) (s : S)
    (e : JsErr)
    (he : (dispatchApply map max a reducer children h s).err = some e) :
    (dispatchApply map max a reducer children h s).hist = h ∧
    (dispatchApply map max a reducer children h s).notified = 0 := by
  unfold dispatchApply at he ⊢
  cases children with
  | none => dsimp only at he; simp at he
  | some cs =>
    dsimp only at he ⊢
    cases hrec : redoForwardChildren map cs (reducer.redo a.args s).1 with
    | mk s2 res =>
      cases res with
      | error e2 => exact ⟨rfl, rfl⟩
      | ok saved => rw [hrec] at he; simp at he

/-- **C4 counterexample**.  With only `"ope_a"` registered, dispatching
`ope_a(1)` with the child `missing(2)` from external state `0` fails with
the unknown-action error — but the primary forward has already run: the
external state is `1`, not `0`.  Names are not all validated before the
first forward call. -/
theorem dispatch_partial_forward_cex :
    (dispatch dmap 64 (some ⟨"ope_a", 1, none⟩) (some [⟨"missing", 2, none⟩])
        initialState (0 : Nat)).err = some (.notFoundReducer "missing") ∧
    (dispatch dmap 64 (some ⟨"ope_a", 1, none⟩) (some [⟨"missing", 2, none⟩])
        initialState (0 : Nat)).state = 1 ∧ (1 : Nat) ≠ 0 := by
  refine ⟨by decide, by decide, by decide⟩

/-- **C4 (amended)**.  If `dispatch` fails (null action, unknown primary
name, unknown child name, or a broken cursor), the history stack, the
cursor and the notification count are untouched; however the failure is
not atomic for the external state: reducer resolution is interleaved with
forward invocation, so the primary's forward and the forwards of children
preceding the first unknown child have already run when the error is
thrown. -/
theorem dispatch_error_history_frame (map : ReducerMap V S) (max : Nat)
    (action : Option (ActionInput V))
    (children : Option (List (ActionInput V))) (h : HistoryState V) (s : S)
    (e : JsErr)
    (he : (dispatch map max action children h s).err = some e) :
    (dispatch map max action children h s).hist = h ∧
    (dispatch map max action children h s).notified = 0 := by
  unfold dispatch at he ⊢
  cases action with
  | none => exact ⟨rfl, rfl⟩
  | some a =>
    dsimp only at he ⊢
    cases hm : map a.name with
    | none => exact ⟨rfl, rfl⟩
    | some reducer =>
      rw [hm] at he
      dsimp only at he ⊢
      by_cases hcond : reducer.ignoreDuplication = true ∧ h.currentStackIndex ≠ -1
      · rw [if_pos hcond] at he ⊢
        cases hcur : stackAt h h.currentStackIndex with
        | none => exact ⟨rfl, rfl⟩
        | some cur =>
          rw [hcur] at he
          dsimp only at he ⊢
          by_cases hdup : (cur.name == a.name &&
              checkDupFn reducer a.args cur.redoArgs) = true
          · rw [if_pos hdup] at he; simp at he
          · rw [if_neg hdup] at he ⊢
            exact dispatchApply_error_frame map max a reducer children h s e he
      · rw [if_neg hcond] at he ⊢
        exact dispatchApply_error_frame map max a reducer children h s e he

/-- **C4 amended witness**: at the counterexample input, the failed
dispatch leaves the history state untouched and fires no notification. -/
theorem dispatch_error_history_frame_witness :
    (dispatch dmap 64 (some ⟨"ope_a", 1, none⟩) (some [⟨"missing", 2, none⟩])
        initialState (0 : Nat)).hist = initialState ∧
    (dispatch dmap 64 (some ⟨"ope_a", 1, none⟩) (some [⟨"missing", 2, none⟩])
        initialState (0 : Nat)).notified = 0 :=
  dispatch_error_history_frame dmap 64 (some ⟨"ope_a", 1, none⟩)
    (some [⟨"missing", 2, none⟩]) initialState 0
    (.notFoundReducer "missing") (by decide)


omit [DecidableEq V] in
/-- A throwing `_undo` leaves the history state untouched. -/
theorem undoStep_error_shape (map : ReducerMap V S) (h : HistoryState V)
    (s : S) (h1 : HistoryState V) (s1 : S) (e : JsErr)
    (hrun : undoStep map h s = (h1, s1, some e)) : h1 = h := by
  unfold undoStep at hrun
  cases hcur : stackAt h h.currentStackIndex with
  | none =>
    rw [hcur] at hrun
    simp only [Prod.mk.injEq] at hrun
    exact hrun.1.symm
  | some cur =>
    rw [hcur] at hrun
    dsimp only at hrun
    cases hstep : entryStepUndo map cur s with
    | mk s2 e2 =>
      rw [hstep] at hrun
      cases e2 with
      | none => simp at hrun
      | some e2 =>
        simp only [Prod.mk.injEq] at hrun
        exact hrun.1.symm

omit [DecidableEq V] in
/-- A throwing `_redo` leaves the history state untouched. -/
theorem redoStep_error_shape (map : ReducerMap V S) (h : HistoryState V)
    (s : S) (h1 : HistoryState V) (s1 : S) (e : JsErr)
    (hrun : redoStep map h s = (h1, s1, some e)) : h1 = h := by
  unfold redoStep at hrun
  cases hcur : stackAt h (h.currentStackIndex + 1) with
  | none =>
    rw [hcur] at hrun
    simp only [Prod.mk.injEq] at hrun
    exact hrun.1.symm
  | some cur =>
    rw [hcur] at hrun
    dsimp only at hrun
    cases hstep : entryStepRedo map cur s with
    | mk s2 e2 =>
      rw [hstep] at hrun
      cases e2 with
      | none => simp at hrun
      | some e2 =>
        simp only [Prod.mk.injEq] at hrun
        exact hrun.1.symm

omit [DecidableEq V] in
/-- Iterated `_undo` (even if it stops at a throw) keeps the stack and
lowers the cursor by at most the iteration count. -/
theorem stepN_undo_hist_bound (map : ReducerMap V S) :
    ∀ (n : Nat) (h : HistoryState V) (s : S),
      ∃ j : Nat, j ≤ n ∧ (stepN (undoStep map) n h s).1
        = ⟨h.historyStack, h.currentStackIndex - j⟩ := by
  intro n
  induction n with
  | zero =>
    intro h s
    exact ⟨0, le_refl 0, by simp [stepN]⟩
  | succ m ih =>
    intro h s
    unfold stepN
    cases hstep : undoStep map h s with
    | mk h2 tl =>
      cases tl with
      | mk s2 e2 =>
        cases e2 with
        | none =>
          obtain ⟨j, hj, hshape⟩ := ih h2 s2
          have h2shape := undoStep_success_shape map h s h2 s2 hstep
          subst h2shape
          refine ⟨j + 1, by omega, ?_⟩
          rw [hshape]
          simp only [HistoryState.mk.injEq, true_and]
          push_cast
          ring
        | some e =>
          have h2shape := undoStep_error_shape map h s h2 s2 e hstep
          subst h2shape
          exact ⟨0, by omega, by simp⟩

omit [DecidableEq V] in
/-- Iterated `_redo` keeps the stack and raises the cursor by at most the
iteration count. -/
theorem stepN_redo_hist_bound (map : ReducerMap V S) :
    ∀ (n : Nat) (h : HistoryState V) (s : S),
      ∃ j : Nat, j ≤ n ∧ (stepN (redoStep map) n h s).1
        = ⟨h.historyStack, h.currentStackIndex + j⟩ := by
  intro n
  induction n with
  | zero =>
    intro h s
    exact ⟨0, le_refl 0, by simp [stepN]⟩
  | succ m ih =>
    intro h s
    unfold stepN
    cases hstep : redoStep map h s with
    | mk h2 tl =>
      cases tl with
      | mk s2 e2 =>
        cases e2 with
        | none =>
          obtain ⟨j, hj, hshape⟩ := ih h2 s2
          have h2shape := redoStep_success_shape map h s h2 s2 hstep
          subst h2shape
          refine ⟨j + 1, by omega, ?_⟩
          rw [hshape]
          simp only [HistoryState.mk.injEq, true_and]
          push_cast
          ring
        | some e =>
          have h2shape := redoStep_error_shape map h s h2 s2 e hstep
          subst h2shape
          exact ⟨0, by omega, by simp⟩

omit [DecidableEq V] in
/-- A successful forward-and-record leaves the cursor at the top. -/
theorem dispatchApply_success_cursor (map : ReducerMap V S) (max : Nat)
    (a : ActionInput V) (reducer : Reducer V S)
    (children : Option (List (ActionInput V))) (h : HistoryState V) (s : S)
    (he : (dispatchApply map max a reducer children h s).err = none) :
    (dispatchApply map max a reducer children h s).hist.currentStackIndex
      = (((dispatchApply map max a reducer children h s).hist.historyStack.length
          : Int)) - 1 := by
  unfold dispatchApply at he ⊢
  cases children with
  | none => exact pushHistory_cursor_top max _ h
  | some cs =>
    dsimp only at he ⊢
    cases hrec : redoForwardChildren map cs (reducer.redo a.args s).1 with
    | mk s2 res =>
      cases res with
      | error e => rw [hrec] at he; simp at he
      | ok saved => exact pushHistory_cursor_top max _ h

/-- Every dispatch either leaves the history state untouched (failure or
duplicate suppression) or ends with the cursor on the top of the stack. -/
theorem dispatch_hist_cases (map : ReducerMap V S) (max : Nat)
    (action : Option (ActionInput V))
    (children : Option (List (ActionInput V))) (h : HistoryState V) (s : S) :
    (dispatch map max action children h s).hist = h ∨
    (dispatch map max action children h s).hist.currentStackIndex
      = (((dispatch map max action children h s).hist.historyStack.length
          : Int)) - 1 := by
  cases he : (dispatch map max action children h s).err with
  | some e => exact Or.inl (dispatch_error_history_frame map max action
      children h s e he).1
  | none =>
    unfold dispatch at he ⊢
    cases action with
    | none => simp at he
    | some a =>
      dsimp only at he ⊢
      cases hm : map a.name with
      | none => rw [hm] at he; simp at he
      | some reducer =>
        rw [hm] at he
        dsimp only at he ⊢
        by_cases hcond : reducer.ignoreDuplication = true ∧
            h.currentStackIndex ≠ -1
        · rw [if_pos hcond] at he ⊢
          cases hcur : stackAt h h.currentStackIndex with
          | none => rw [hcur] at he; simp at he
          | some cur =>
            rw [hcur] at he
            dsimp only at he ⊢
            by_cases hdup : (cur.name == a.name &&
                checkDupFn reducer a.args cur.redoArgs) = true
            · rw [if_pos hdup]
              exact Or.inl rfl
            · rw [if_neg hdup] at he ⊢
              exact Or.inr (dispatchApply_success_cursor map max a reducer
                children h s he)
        · rw [if_neg hcond] at he ⊢
          exact Or.inr (dispatchApply_success_cursor map max a reducer
            children h s he)

omit [DecidableEq V] in
/-- `undo()` preserves the cursor-validity invariant. -/
theorem undo_cursor_range (map : ReducerMap V S) (h : HistoryState V) (s : S)
    (hr : cursorInRange h) : cursorInRange (undo map h s).hist := by
  obtain ⟨hr1, hr2⟩ := hr
  unfold undo
  by_cases hpos : -1 < h.currentStackIndex
  · rw [if_pos hpos]
    cases hstep : undoStep map h s with
    | mk h1 tl =>
      cases tl with
      | mk s1 e1 =>
        cases e1 with
        | none =>
          have := undoStep_success_shape map h s h1 s1 hstep
          subst this
          exact ⟨by dsimp only; omega, by dsimp only; omega⟩
        | some e =>
          have := undoStep_error_shape map h s h1 s1 e hstep
          subst this
          exact ⟨hr1, hr2⟩
  · rw [if_neg hpos]
    exact ⟨hr1, hr2⟩

omit [DecidableEq V] in
/-- `redo()` preserves the cursor-validity invariant. -/
theorem redo_cursor_range (map : ReducerMap V S) (h : HistoryState V) (s : S)
    (hr : cursorInRange h) : cursorInRange (redo map h s).hist := by
  obtain ⟨hr1, hr2⟩ := hr
  unfold redo
  by_cases hlt : h.currentStackIndex < (h.historyStack.length : Int) - 1
  · rw [if_pos hlt]
    cases hstep : redoStep map h s with
    | mk h1 tl =>
      cases tl with
      | mk s1 e1 =>
        cases e1 with
        | none =>
          have := redoStep_success_shape map h s h1 s1 hstep
          subst this
          exact ⟨by dsimp only; omega, by dsimp only; omega⟩
        | some e =>
          have := redoStep_error_shape map h s h1 s1 e hstep
          subst this
          exact ⟨hr1, hr2⟩
  · rw [if_neg hlt]
    exact ⟨hr1, hr2⟩

omit [DecidableEq V] in
/-- `jump()` preserves the cursor-validity invariant. -/
theorem jump_cursor_range (map : ReducerMap V S) (index : Int)
    (h : HistoryState V) (s : S)
    (hr : cursorInRange h) : cursorInRange (jump map index h s).hist := by
  obtain ⟨hr1, hr2⟩ := hr
  have hlen : (0 : Int) ≤ (h.historyStack.length : Int) := by positivity
  have ht1 : -1 ≤ min ((h.historyStack.length : Int) - 1) (max (-1) index) :=
    le_min (by omega) (le_max_left _ _)
  have ht2 : min ((h.historyStack.length : Int) - 1) (max (-1) index)
      ≤ (h.historyStack.length : Int) - 1 := min_le_left _ _
  unfold jump
  by_cases hlt : min ((h.historyStack.length : Int) - 1) (max (-1) index)
      < h.currentStackIndex
  · rw [if_pos hlt]
    obtain ⟨j, hj, hshape⟩ := stepN_undo_hist_bound map
      (h.currentStackIndex
        - min ((h.historyStack.length : Int) - 1) (max (-1) index)).toNat h s
    cases hres : stepN (undoStep map)
        (h.currentStackIndex
          - min ((h.historyStack.length : Int) - 1) (max (-1) index)).toNat h s with
    | mk h1 tl =>
      cases tl with
      | mk s1 e1 =>
        rw [hres] at hshape
        have hjle : (j : Int) ≤ h.currentStackIndex
            - min ((h.historyStack.length : Int) - 1) (max (-1) index) := by
          have := Int.toNat_of_nonneg (a := h.currentStackIndex
            - min ((h.historyStack.length : Int) - 1) (max (-1) index))
            (by omega)
          omega
        cases e1 with
        | none =>
          dsimp only at hshape
          subst hshape
          exact ⟨by dsimp only; omega, by dsimp only; omega⟩
        | some e =>
          dsimp only at hshape
          subst hshape
          exact ⟨by dsimp only; omega, by dsimp only; omega⟩
  · rw [if_neg hlt]
    by_cases hgt : h.currentStackIndex
        < min ((h.historyStack.length : Int) - 1) (max (-1) index)
    · rw [if_pos hgt]
      obtain ⟨j, hj, hshape⟩ := stepN_redo_hist_bound map
        (min ((h.historyStack.length : Int) - 1) (max (-1) index)
          - h.currentStackIndex).toNat h s
      cases hres : stepN (redoStep map)
          (min ((h.historyStack.length : Int) - 1) (max (-1) index)
            - h.currentStackIndex).toNat h s with
      | mk h1 tl =>
        cases tl with
        | mk s1 e1 =>
          rw [hres] at hshape
          have hjle : (j : Int) ≤ min ((h.historyStack.length : Int) - 1)
              (max (-1) index) - h.currentStackIndex := by
            have := Int.toNat_of_nonneg
              (a := min ((h.historyStack.length : Int) - 1) (max (-1) index)
                - h.currentStackIndex) (by omega)
            omega
          cases e1 with
          | none =>
            dsimp only at hshape
            subst hshape
            exact ⟨by dsimp only; omega, by dsimp only; omega⟩
          | some e =>
            dsimp only at hshape
            subst hshape
            exact ⟨by dsimp only; omega, by dsimp only; omega⟩
    · rw [if_neg hgt]
      exact ⟨hr1, hr2⟩

/-- One public call preserves the cursor-validity invariant. -/
theorem runOp_cursor_range (map : ReducerMap V S) (max : Nat) (op : Op V)
    (h : HistoryState V) (s : S)
    (hr : cursorInRange h) : cursorInRange (runOp map max op h s).1 := by
  cases op with
  | dispatchOp a c =>
    show cursorInRange (dispatch map max a c h s).hist
    rcases dispatch_hist_cases map max a c h s with hsame | htop
    · rw [hsame]; exact hr
    · have hlen : (0 : Int)
          ≤ ((dispatch map max a c h s).hist.historyStack.length : Int) := by
        positivity
      exact ⟨by omega, by omega⟩
  | undoOp => exact undo_cursor_range map h s hr
  | redoOp => exact redo_cursor_range map h s hr
  | jumpOp i => exact jump_cursor_range map i h s hr
  | clearOp => exact ⟨by norm_num [runOp, clear], by norm_num [runOp, clear]⟩

/-- Any sequence of public calls preserves the cursor-validity invariant. -/
theorem runOps_cursor_range (map : ReducerMap V S) (max : Nat) :
    ∀ (ops : List (Op V)) (h : HistoryState V) (s : S),
      cursorInRange h → cursorInRange (runOps map max ops h s).1 := by
  intro ops
  induction ops with
  | nil => intro h s hr; exact hr
  | cons op rest ih =>
    intro h s hr
    unfold runOps
    exact ih _ _ (runOp_cursor_range map max op h s hr)

/-- **C9 counterexample**.  After dispatching `ope_a(1)`, `ope_a(2)`,
undoing once, and dispatching `ope_a(1)` again with a duplicate-suppressing
reducer, the final dispatch is suppressed and returns with cursor `0` while
the stack still has 2 entries — so the cursor does not equal
`stack.length - 1` immediately after that dispatch call. -/
theorem dispatch_cursor_top_cex :
    (runOps dmap 64 [Op.dispatchOp (some ⟨"ope_a", 1, none⟩) none,
        Op.dispatchOp (some ⟨"ope_a", 2, none⟩) none, Op.undoOp,
        Op.dispatchOp (some ⟨"ope_a", 1, none⟩) none]
        initialState (0 : Nat)).1.currentStackIndex = 0 ∧
    (runOps dmap 64 [Op.dispatchOp (some ⟨"ope_a", 1, none⟩) none,
        Op.dispatchOp (some ⟨"ope_a", 2, none⟩) none, Op.undoOp,
        Op.dispatchOp (some ⟨"ope_a", 1, none⟩) none]
        initialState (0 : Nat)).1.historyStack.length = 2 ∧
    (0 : Int) ≠ (2 : Int) - 1 := by
  refine ⟨by decide, by decide, by decide⟩

/-- **C9 (amended)**.  Immediately after every successful,
non-duplicate-suppressed dispatch the cursor equals `stack.length - 1`
(a suppressed dispatch leaves the cursor wherever it was, possibly below
the top); and for every sequence of dispatch/undo/redo/jump/clear calls
from the initial empty state the cursor stays in `[-1, stack.length - 1]`. -/
theorem dispatch_cursor_top_and_range :
    (∀ (map : ReducerMap V S) (max : Nat) (a : ActionInput V)
        (children : Option (List (ActionInput V))) (h : HistoryState V) (s : S),
      dispatchSuppressed map a h = false →
      (dispatch map max (some a) children h s).err = none →
      (dispatch map max (some a) children h s).hist.currentStackIndex
        = (((dispatch map max (some a) children h s).hist.historyStack.length
            : Int)) - 1) ∧
    (∀ (map : ReducerMap V S) (max : Nat) (ops : List (Op V)) (s : S),
      cursorInRange (runOps map max ops initialState s).1) := by
  constructor
  · intro map max a children h s hsup he
    unfold dispatch at he ⊢
    unfold dispatchSuppressed at hsup
    dsimp only at he ⊢
    cases hm : map a.name with
    | none => rw [hm] at he; simp at he
    | some reducer =>
      rw [hm] at hsup he
      dsimp only at he hsup ⊢
      by_cases hcond : reducer.ignoreDuplication = true ∧ h.currentStackIndex ≠ -1
      · rw [if_pos hcond] at he hsup ⊢
        cases hcur : stackAt h h.currentStackIndex with
        | none => rw [hcur] at he; simp at he
        | some cur =>
          rw [hcur] at he hsup
          dsimp only at he hsup ⊢
          simp only [hsup, Bool.false_eq_true, if_false] at he ⊢
          exact dispatchApply_success_cursor map max a reducer children h s he
      · rw [if_neg hcond] at he ⊢
        exact dispatchApply_success_cursor map max a reducer children h s he
  · intro map max ops s
    exact runOps_cursor_range map max ops initialState s
      ⟨by norm_num [initialState], by norm_num [initialState]⟩

/-- **C9 amended witness**: the second dispatch of the series scenario ends
with the cursor on the top of the stack, and a lone `undo()` from the
initial state keeps the cursor in range. -/
theorem dispatch_cursor_top_and_range_witness :
    dispatchSuppressed tmap ⟨"ope_b", 2, none⟩ seriesD1.hist = false ∧
    seriesD2.hist.currentStackIndex
      = ((seriesD2.hist.historyStack.length : Int)) - 1 ∧
    cursorInRange (runOps tmap 64 [Op.undoOp] initialState
      ((0, 0) : Nat × Nat)).1 :=
  ⟨by decide,
    dispatch_cursor_top_and_range.1 tmap 64 ⟨"ope_b", 2, none⟩ none
      seriesD1.hist seriesD1.state (by decide) (by decide),
    dispatch_cursor_top_and_range.2 tmap 64 [Op.undoOp] (0, 0)⟩

omit [DecidableEq V] in
/-- Chains compose over list append. -/
theorem chainF_append (map : ReducerMap V S) :
    ∀ (l1 l2 : List (SavedAction V)) (b s : S),
      chainF map (l1 ++ l2) b s ↔ ∃ m, chainF map l1 b m ∧ chainF map l2 m s := by
  intro l1
  induction l1 with
  | nil =>
    intro l2 b s
    constructor
    · intro hc
      exact ⟨b, rfl, hc⟩
    · rintro ⟨m, hm, hc⟩
      unfold chainF at hm
      subst hm
      simpa using hc
  | cons e rest ih =>
    intro l2 b s
    constructor
    · rintro ⟨s1, hredo, hundo, hc⟩
      obtain ⟨m, hm1, hm2⟩ := (ih l2 s1 s).1 hc
      exact ⟨m, ⟨s1, hredo, hundo, hm1⟩, hm2⟩
    · rintro ⟨m, ⟨s1, hredo, hundo, hm1⟩, hm2⟩
      exact ⟨s1, hredo, hundo, (ih l2 s1 s).2 ⟨m, hm1, hm2⟩⟩

omit [DecidableEq V] in
/-- Dropping the oldest entry keeps a (rebased) chain. -/
theorem chainF_tail (map : ReducerMap V S) (l : List (SavedAction V)) (b s : S)
    (hc : chainF map l b s) : ∃ b2, chainF map l.tail b2 s := by
  cases l with
  | nil => exact ⟨b, hc⟩
  | cons e rest =>
    obtain ⟨s1, _, _, hrest⟩ := hc
    exact ⟨s1, hrest⟩

omit [DecidableEq V] in
/-- A clean prefix of child undos composes with the rest. -/
theorem undoChildrenRun_append (map : ReducerMap V S) :
    ∀ (l1 l2 : List (ChildSaved V)) (s m : S),
      undoChildrenRun map l1 s = (m, none) →
      undoChildrenRun map (l1 ++ l2) s = undoChildrenRun map l2 m := by
  intro l1
  induction l1 with
  | nil =>
    intro l2 s m hrun
    unfold undoChildrenRun at hrun
    simp only [Prod.mk.injEq] at hrun
    rw [List.nil_append, hrun.1]
  | cons c rest ih =>
    intro l2 s m hrun
    unfold undoChildrenRun at hrun
    cases hm : map c.name with
    | none => rw [hm] at hrun; simp at hrun
    | some r =>
      rw [hm] at hrun
      have hstep : undoChildrenRun map (c :: (rest ++ l2)) s
          = undoChildrenRun map (rest ++ l2) (r.undo c.undoArgs s) := by
        conv_lhs => unfold undoChildrenRun
        rw [hm]
      rw [List.cons_append, hstep]
      exact ih l2 (r.undo c.undoArgs s) m hrun

omit [DecidableEq V] in
/-- Recording children never fails when every child name is registered. -/
theorem redoForwardChildren_no_error (map : ReducerMap V S) :
    ∀ (cs : List (ActionInput V)) (s1 : S),
      (∀ c ∈ cs, (map c.name).isSome = true) →
      ∃ s2 saved, redoForwardChildren map cs s1 = (s2, .ok saved) := by
  intro cs
  induction cs with
  | nil => intro s1 _; exact ⟨s1, [], rfl⟩
  | cons c rest ih =>
    intro s1 hreg
    have hc := hreg c (by simp)
    cases hm : map c.name with
    | none => rw [hm] at hc; simp at hc
    | some r =>
      obtain ⟨s2, saved, hrec⟩ := ih (r.redo c.args s1).1
        (fun x hx => hreg x (by simp [hx]))
      refine ⟨s2, ⟨c.name, c.args, (r.redo c.args s1).2⟩ :: saved, ?_⟩
      unfold redoForwardChildren
      rw [hm]
      dsimp only
      rw [hrec]

omit [DecidableEq V] in
/-- When `dispatch` records children successfully and every reducer's
`undo` inverts its `redo`, replaying the recorded children forward repeats
the captured run, and undoing them in reverse declaration order restores
the pre-children state. -/
theorem children_forward_chain (map : ReducerMap V S)
    (Hinv : ∀ n r, map n = some r →
      ∀ (a : V) (s : S), r.undo (r.redo a s).2 (r.redo a s).1 = s) :
    ∀ (cs : List (ActionInput V)) (s1 s2 : S) (saved : List (ChildSaved V)),
      redoForwardChildren map cs s1 = (s2, .ok saved) →
      redoChildrenRun map saved s1 = (s2, none) ∧
        undoChildrenRun map saved.reverse s2 = (s1, none) := by
  intro cs
  induction cs with
  | nil =>
    intro s1 s2 saved hrun
    unfold redoForwardChildren at hrun
    simp only [Prod.mk.injEq, Except.ok.injEq] at hrun
    obtain ⟨rfl, rfl⟩ := hrun
    exact ⟨rfl, rfl⟩
  | cons c rest ih =>
    intro s1 s2 saved hrun
    unfold redoForwardChildren at hrun
    cases hm : map c.name with
    | none => rw [hm] at hrun; simp at hrun
    | some r =>
      rw [hm] at hrun
      dsimp only at hrun
      cases hrec : redoForwardChildren map rest (r.redo c.args s1).1 with
      | mk s3 res =>
        rw [hrec] at hrun
        cases res with
        | error e => simp at hrun
        | ok saved2 =>
          simp only [Prod.mk.injEq, Except.ok.injEq] at hrun
          obtain ⟨rfl, rfl⟩ := hrun
          obtain ⟨hredo, hundo⟩ := ih _ _ _ hrec
          constructor
          · unfold redoChildrenRun
            rw [hm]
            exact hredo
          · rw [List.reverse_cons]
            rw [undoChildrenRun_append map saved2.reverse _ _ _ hundo]
            unfold undoChildrenRun
            rw [hm]
            unfold undoChildrenRun
            rw [Hinv c.name r hm c.args s1]

omit [DecidableEq V] in
/-- A forward-and-record call of a registered, non-series action from a
reachable configuration succeeds and yields a reachable configuration
(given that every reducer's `undo` inverts its `redo`). -/
theorem dispatchApply_preserves_goodRun (map : ReducerMap V S) (max : Nat)
    (a : ActionInput V) (reducer : Reducer V S)
    (children : Option (List (ActionInput V))) (h : HistoryState V) (s : S)
    (Hinv : ∀ n r, map n = some r →
      ∀ (x : V) (st : S), r.undo (r.redo x st).2 (r.redo x st).1 = st)
    (hm : map a.name = some reducer)
    (hkey : keyTruthy a.seriesKey = false)
    (hch : ∀ c ∈ children.getD [], (map c.name).isSome = true)
    (hg : goodRun map h s) :
    (dispatchApply map max a reducer children h s).err = none ∧
    goodRun map (dispatchApply map max a reducer children h s).hist
      (dispatchApply map max a reducer children h s).state := by
  obtain ⟨b, hchain, hcur⟩ := hg
  have htop : ¬ h.currentStackIndex < (h.historyStack.length : Int) - 1 := by
    omega
  unfold dispatchApply
  cases children with
  | none =>
    dsimp only
    have hlink : chainF map
        [⟨a.name, a.args, (reducer.redo a.args s).2, a.seriesKey, none⟩]
        s (reducer.redo a.args s).1 := by
      refine ⟨(reducer.redo a.args s).1, ?_, ?_, rfl⟩
      · simp only [entryStepRedo, hm, Option.getD_none, redoChildrenRun]
      · simp only [entryStepUndo, Option.getD_none, List.reverse_nil,
          undoChildrenRun, hm, Hinv a.name reducer hm a.args s]
    have hchain2 : chainF map
        (h.historyStack
          ++ [⟨a.name, a.args, (reducer.redo a.args s).2, a.seriesKey, none⟩])
        b (reducer.redo a.args s).1 :=
      (chainF_append map _ _ _ _).2 ⟨s, hchain, hlink⟩
    by_cases hcap : h.historyStack.length + 1 ≤ max
    · rw [pushHistory_plain_nocap max _ h hkey htop hcap]
      refine ⟨rfl, b, hchain2, ?_⟩
      simp only [List.length_append, List.length_singleton]
      push_cast
      ring
    · rw [pushHistory_plain_cap max _ h hkey htop (by omega)]
      obtain ⟨b2, hc2⟩ := chainF_tail map _ _ _ hchain2
      exact ⟨rfl, b2, hc2, rfl⟩
  | some cs =>
    dsimp only
    obtain ⟨s2, saved, hrec⟩ := redoForwardChildren_no_error map cs
      (reducer.redo a.args s).1 (by simpa using hch)
    rw [hrec]
    dsimp only
    obtain ⟨hredo, hundo⟩ := children_forward_chain map Hinv cs _ _ _ hrec
    have hlink : chainF map
        [⟨a.name, a.args, (reducer.redo a.args s).2, a.seriesKey, some saved⟩]
        s s2 := by
      refine ⟨s2, ?_, ?_, rfl⟩
      · simp only [entryStepRedo, hm, Option.getD_some]
        exact hredo
      · simp only [entryStepUndo, Option.getD_some, hundo, hm,
          Hinv a.name reducer hm a.args s]
    have hchain2 : chainF map
        (h.historyStack
          ++ [⟨a.name, a.args, (reducer.redo a.args s).2, a.seriesKey,
                some saved⟩]) b s2 :=
      (chainF_append map _ _ _ _).2 ⟨s, hchain, hlink⟩
    by_cases hcap : h.historyStack.length + 1 ≤ max
    · rw [pushHistory_plain_nocap max _ h hkey htop hcap]
      refine ⟨rfl, b, hchain2, ?_⟩
      simp only [List.length_append, List.length_singleton]
      push_cast
      ring
    · rw [pushHistory_plain_cap max _ h hkey htop (by omega)]
      obtain ⟨b2, hc2⟩ := chainF_tail map _ _ _ hchain2
      exact ⟨rfl, b2, hc2, rfl⟩

/-- A dispatch of a registered, non-series action (with registered
children) from a reachable configuration succeeds and stays reachable. -/
theorem dispatch_preserves_goodRun (map : ReducerMap V S) (max : Nat)
    (a : ActionInput V) (children : Option (List (ActionInput V)))
    (h : HistoryState V) (s : S)
    (Hinv : ∀ n r, map n = some r →
      ∀ (x : V) (st : S), r.undo (r.redo x st).2 (r.redo x st).1 = st)
    (hreg : (map a.name).isSome = true)
    (hkey : keyTruthy a.seriesKey = false)
    (hch : ∀ c ∈ children.getD [], (map c.name).isSome = true)
    (hg : goodRun map h s) :
    (dispatch map max (some a) children h s).err = none ∧
    goodRun map (dispatch map max (some a) children h s).hist
      (dispatch map max (some a) children h s).state := by
  unfold dispatch
  dsimp only
  cases hm : map a.name with
  | none => rw [hm] at hreg; simp at hreg
  | some reducer =>
    dsimp only
    by_cases hcond : reducer.ignoreDuplication = true ∧ h.currentStackIndex ≠ -1
    · rw [if_pos hcond]
      obtain ⟨b, hchain, hcur⟩ := hg
      have hlen : 1 ≤ h.historyStack.length := by
        rcases Nat.eq_zero_or_pos h.historyStack.length with hz | hp
        · exfalso
          rw [hz] at hcur
          norm_num at hcur
          exact hcond.2 hcur
        · exact hp
      have hat : stackAt h h.currentStackIndex
          = h.historyStack.get? (h.historyStack.length - 1) := by
        unfold stackAt
        rw [if_pos (by omega)]
        congr 1
        omega
      cases hget : h.historyStack.get? (h.historyStack.length - 1) with
      | none =>
        exfalso
        rw [List.get?_eq_none] at hget
        omega
      | some cur =>
        rw [hat, hget]
        dsimp only
        by_cases hdup : (cur.name == a.name &&
            checkDupFn reducer a.args cur.redoArgs) = true
        · rw [if_pos hdup]
          exact ⟨rfl, b, hchain, hcur⟩
        · rw [if_neg hdup]
          exact dispatchApply_preserves_goodRun map max a reducer children h s
            Hinv hm hkey hch ⟨b, hchain, hcur⟩
    · rw [if_neg hcond]
      exact dispatchApply_preserves_goodRun map max a reducer children h s
        Hinv hm hkey hch hg

omit [DecidableEq V] in
/-- A successful `undo()` of the entry at the cursor, characterized by its
`entryStepUndo` effect. -/
theorem undo_success_entry (map : ReducerMap V S) (h : HistoryState V) (s : S)
    (cur : SavedAction V) (m : S)
    (hpos : -1 < h.currentStackIndex)
    (hcur : stackAt h h.currentStackIndex = some cur)
    (hstep : entryStepUndo map cur s = (m, none)) :
    undo map h s = ⟨⟨h.historyStack, h.currentStackIndex - 1⟩, m, 1, none⟩ := by
  unfold undo undoStep
  rw [if_pos hpos, hcur]
  dsimp only
  rw [hstep]

omit [DecidableEq V] in
/-- A successful `redo()` of the entry after the cursor, characterized by
its `entryStepRedo` effect. -/
theorem redo_success_entry (map : ReducerMap V S) (h : HistoryState V) (s : S)
    (cur : SavedAction V) (m : S)
    (hlt : h.currentStackIndex < (h.historyStack.length : Int) - 1)
    (hcur : stackAt h (h.currentStackIndex + 1) = some cur)
    (hstep : entryStepRedo map cur s = (m, none)) :
    redo map h s = ⟨⟨h.historyStack, h.currentStackIndex + 1⟩, m, 1, none⟩ := by
  unfold redo redoStep
  rw [if_pos hlt, hcur]
  dsimp only
  rw [hstep]

/-- Running a concatenation of call lists runs them in order. -/
theorem runOps_append (map : ReducerMap V S) (max : Nat) :
    ∀ (l1 l2 : List (Op V)) (h : HistoryState V) (s : S),
      runOps map max (l1 ++ l2) h s
        = runOps map max l2 (runOps map max l1 h s).1 (runOps map max l1 h s).2 := by
  intro l1
  induction l1 with
  | nil => intro l2 h s; rfl
  | cons op rest ih =>
    intro l2 h s
    rw [List.cons_append]
    show runOps map max (rest ++ l2) (runOp map max op h s).1
      (runOp map max op h s).2 = _
    rw [ih l2 (runOp map max op h s).1 (runOp map max op h s).2]
    rfl

/-- Undoing as many times as the chained stack is long walks back to the
chain's base state, leaving the stack intact and the cursor at `-1`
(entries beyond the chain, in `post`, are never touched). -/
theorem undoAll_from_chain (map : ReducerMap V S) (max : Nat)
    (stack : List (SavedAction V)) :
    ∀ (post : List (SavedAction V)) (b s : S),
      chainF map stack b s →
      runOps map max (List.replicate stack.length Op.undoOp)
        ⟨stack ++ post, (stack.length : Int) - 1⟩ s
      = (⟨stack ++ post, -1⟩, b) := by
  induction stack using List.reverseRecOn with
  | nil =>
    intro post b s hc
    unfold chainF at hc
    subst hc
    norm_num [runOps]
  | append_singleton pre e ih =>
    intro post b s hc
    obtain ⟨m, hpre, hsing⟩ := (chainF_append map pre [e] b s).1 hc
    obtain ⟨s1, hredo, hundo, hlast⟩ := hsing
    unfold chainF at hlast
    subst hlast
    have hcur : ((pre ++ [e]).length : Int) - 1 = (pre.length : Int) := by
      simp [List.length_append]
    have hlenrepl : (pre ++ [e]).length = pre.length + 1 := by
      simp [List.length_append]
    rw [hcur, hlenrepl, List.replicate_succ]
    have hat : stackAt ⟨(pre ++ [e]) ++ post, (pre.length : Int)⟩
        (pre.length : Int) = some e := by
      unfold stackAt
      rw [if_pos (by positivity), Int.toNat_natCast, List.append_assoc,
        List.get?_append_right (le_refl pre.length)]
      simp
    simp only [runOps, runOp]
    rw [undo_success_entry map ⟨(pre ++ [e]) ++ post, (pre.length : Int)⟩ s1 e m
      (by dsimp only; omega) hat hundo]
    dsimp only
    rw [List.append_assoc]
    rw [ih ([e] ++ post) b m hpre]

/-- Redoing as many times as the chained suffix is long replays it up to
the chain's top state, leaving the stack intact and the cursor at the top. -/
theorem redoAll_from_chain (map : ReducerMap V S) (max : Nat) :
    ∀ (rest pre : List (SavedAction V)) (m t : S),
      chainF map rest m t →
      runOps map max (List.replicate rest.length Op.redoOp)
        ⟨pre ++ rest, (pre.length : Int) - 1⟩ m
      = (⟨pre ++ rest, ((pre ++ rest).length : Int) - 1⟩, t) := by
  intro rest
  induction rest with
  | nil =>
    intro pre m t hc
    unfold chainF at hc
    subst hc
    simp [runOps]
  | cons e rest2 ih =>
    intro pre m t hc
    obtain ⟨s1, hredo, hundo, hrest⟩ := hc
    rw [List.length_cons, List.replicate_succ]
    have hat : stackAt ⟨pre ++ e :: rest2, (pre.length : Int) - 1⟩
        (((pre.length : Int) - 1) + 1) = some e := by
      unfold stackAt
      have hx : ((pre.length : Int) - 1) + 1 = (pre.length : Int) := by ring
      rw [hx, if_pos (by positivity), Int.toNat_natCast,
        List.get?_append_right (le_refl pre.length)]
      simp
    simp only [runOps, runOp]
    rw [redo_success_entry map ⟨pre ++ e :: rest2, (pre.length : Int) - 1⟩ m e s1
      (by dsimp only; simp only [List.length_append, List.length_cons]; push_cast; omega)
      hat hredo]
    dsimp only
    have hx : ((pre.length : Int) - 1) + 1 = ((pre ++ [e]).length : Int) - 1 := by
      simp [List.length_append]
    have hy : pre ++ e :: rest2 = (pre ++ [e]) ++ rest2 := by
      rw [List.append_assoc]
      rfl
    rw [hx, hy]
    rw [ih (pre ++ [e]) s1 t hrest]

/-- Folding registered, non-series dispatches preserves reachability. -/
theorem runOps_dispatches_goodRun (map : ReducerMap V S) (max : Nat)
    (Hinv : ∀ n r, map n = some r →
      ∀ (x : V) (st : S), r.undo (r.redo x st).2 (r.redo x st).1 = st) :
    ∀ (ds : List (ActionInput V × Option (List (ActionInput V))))
      (h : HistoryState V) (s : S),
      (∀ d ∈ ds, (map d.1.name).isSome = true ∧
        ∀ c ∈ d.2.getD [], (map c.name).isSome = true) →
      (∀ d ∈ ds, keyTruthy d.1.seriesKey = false) →
      goodRun map h s →
      goodRun map (runOps map max (dispatchOps ds) h s).1
        (runOps map max (dispatchOps ds) h s).2 := by
  intro ds
  induction ds with
  | nil => intro h s _ _ hg; exact hg
  | cons d rest ih =>
    intro h s hreg hkey hg
    unfold dispatchOps
    rw [List.map_cons]
    have hstep := dispatch_preserves_goodRun map max d.1 d.2 h s Hinv
      (hreg d (by simp)).1 (hkey d (by simp)) (hreg d (by simp)).2 hg
    simp only [runOps, runOp]
    exact ih _ _ (fun x hx => hreg x (by simp [hx]))
      (fun x hx => hkey x (by simp [hx])) hstep.2

/-- **C3 (amended)**.  For any sequence of dispatches of registered
actions (primary and child names all registered) that carry no truthy
`seriesKey`, with deterministic reducers whose `undo` exactly inverts
their `redo` (undoing the captured `undoArgs` restores the pre-`redo`
state), calling `undo()` stack-length many times (which reaches cursor
`-1`; further calls are no-ops) and then `redo()` stack-length many times
returns both the external state and the whole history state to exactly
what they were right after the original dispatches. -/
theorem roundtrip_restores_state (map : ReducerMap V S) (max : Nat)
    (Hinv : ∀ n r, map n = some r →
      ∀ (x : V) (st : S), r.undo (r.redo x st).2 (r.redo x st).1 = st)
    (ds : List (ActionInput V × Option (List (ActionInput V))))
    (Hreg : ∀ d ∈ ds, (map d.1.name).isSome = true ∧
      ∀ c ∈ d.2.getD [], (map c.name).isSome = true)
    (Hkey : ∀ d ∈ ds, keyTruthy d.1.seriesKey = false)
    (s0 : S) :
    runOps map max
        (List.replicate
            (runOps map max (dispatchOps ds) initialState s0).1.historyStack.length
            Op.undoOp
          ++ List.replicate
            (runOps map max (dispatchOps ds) initialState s0).1.historyStack.length
            Op.redoOp)
        (runOps map max (dispatchOps ds) initialState s0).1
        (runOps map max (dispatchOps ds) initialState s0).2
      = runOps map max (dispatchOps ds) initialState s0 := by
  have hgood := runOps_dispatches_goodRun map max Hinv ds initialState s0
    Hreg Hkey ⟨s0, rfl, by norm_num [initialState]⟩
  cases hrun : runOps map max (dispatchOps ds) initialState s0 with
  | mk h1 s1 =>
    rw [hrun] at hgood
    obtain ⟨b, hchain, hcur⟩ := hgood
    cases h1 with
    | mk stack cursor =>
      dsimp only at hchain hcur ⊢
      subst hcur
      rw [runOps_append]
      have hu := undoAll_from_chain map max stack [] b s1 hchain
      rw [List.append_nil] at hu
      rw [hu]
      have hr := redoAll_from_chain map max stack [] b s1 hchain
      norm_num at hr
      exact hr

/-- **C3 counterexample**.  With the increment reducer `addR` — whose
`undo` restores the exact captured pre-state, so it is a deterministic,
faithfully-reversing reducer — dispatching `add(1)` then `add(2)` under
the same series key `"k"` coalesces into the single entry
`{redoArgs 2, undoArgs 0}` while the external state reaches `3`.  Undoing
to cursor `-1` and redoing back to the top leaves the state at `2 ≠ 3`:
the round trip does not reproduce the post-dispatch state once series
coalescing is involved. -/
theorem roundtrip_cex :
    addRun.2 = 3 ∧
    addRun.1.historyStack.length = 1 ∧
    addR.undo (addR.redo 2 0).2 (addR.redo 2 0).1 = 0 ∧
    (runOps amap 64 (List.replicate addRun.1.historyStack.length Op.undoOp
        ++ List.replicate addRun.1.historyStack.length Op.redoOp)
      addRun.1 addRun.2).2 = 2 ∧
    (2 : Nat) ≠ 3 := by
  refine ⟨by decide, by decide, by decide, by decide, by decide⟩

/-- **C3 amended witness**: two plain (series-key-free) dispatches of the
increment reducer round-trip exactly. -/
theorem roundtrip_restores_state_witness :
    runOps amap 64
        (List.replicate
            (runOps amap 64 (dispatchOps [(⟨"add", 1, none⟩, none),
              (⟨"add", 2, none⟩, none)]) initialState 0).1.historyStack.length
            Op.undoOp
          ++ List.replicate
            (runOps amap 64 (dispatchOps [(⟨"add", 1, none⟩, none),
              (⟨"add", 2, none⟩, none)]) initialState 0).1.historyStack.length
            Op.redoOp)
        (runOps amap 64 (dispatchOps [(⟨"add", 1, none⟩, none),
          (⟨"add", 2, none⟩, none)]) initialState 0).1
        (runOps amap 64 (dispatchOps [(⟨"add", 1, none⟩, none),
          (⟨"add", 2, none⟩, none)]) initialState 0).2
      = runOps amap 64 (dispatchOps [(⟨"add", 1, none⟩, none),
          (⟨"add", 2, none⟩, none)]) initialState 0 :=
  roundtrip_restores_state amap 64
    (fun n r hr x st => by
      unfold amap defineReducer at hr
      by_cases hn : n = "add"
      · rw [if_pos hn] at hr
        cases hr
        rfl
      · rw [if_neg hn] at hr
        unfold emptyMap at hr
        cases hr)
    [(⟨"add", 1, none⟩, none), (⟨"add", 2, none⟩, none)]
    (by decide) (by decide) 0

end Okahistory
